import Mathlib

/-!
Verification of the acnh_flowers breeding engine.

This file gives a shallow embedding of the `flower` package (genetic
distributions, breeding via Punnett-square lookup, canonical reduction with a
binary GCD) and of the `breedgraph` package (tests, phenotype-subset
enumeration, the breeding graph with its expansion, best-predecessor
maintenance, and path-cost traversal), together with theorems settling the
specification claims.

Modelling conventions:
* Go `uint64` values are naturals reduced modulo `2 ^ 64` exactly where the Go
  code can overflow: the accumulation inside `Breed`, and the `succChances` /
  `totalChances` accumulators of `PhenotypeTest`, which are plain `uint64`
  variables and wrap; shifts and divisions in the GCD cannot overflow and are
  plain `Nat` operations.
* Go `float64` costs are modelled as exact rationals `ℚ`; every cost arising
  in the claims is produced by `NoTest` (constant 1) or `PhenotypeTest`
  (a quotient of two weight sums), and all cost arithmetic in the claims is
  addition, division and comparison, which the specification treats as exact.
* A `GeneticDistribution` is the `[81]uint64` array of the source, indexed by
  the canonical genotype index of the source's `init` loop: index
  `27*g0 + 9*g1 + 3*g2 + g3` holds the weight of the genotype whose four genes
  have zygosities `g0 g1 g2 g3 ∈ {0,1,2}` (the source's packed `Genotype`
  code `g0 | g1<<2 | g2<<4 | g3<<6` is translated through `genotypeToIdx`,
  which realises exactly this base-3 indexing).
-/

namespace flower

/-- Width modulus of Go's `uint64` arithmetic. -/
def M : ℕ := 2 ^ 64

/-- `GeneticDistribution`: the `[81]uint64` weight array, by genotype index. -/
def GeneticDistribution : Type := Fin 81 → ℕ

instance : DecidableEq GeneticDistribution := by
  unfold GeneticDistribution; infer_instance

/-- The all-zero sentinel distribution (`zeroDist` in the source). -/
def zeroDist : GeneticDistribution := fun _ => 0

/-- `GeneticDistribution.IsZero`. -/
def IsZero (gd : GeneticDistribution) : Prop := gd = zeroDist

instance (gd : GeneticDistribution) : Decidable (IsZero gd) := by
  unfold IsZero; infer_instance

/-- Zygosity of gene 0 of the genotype with index `i` (`Genotype.gene0`,
read through the base-3 index encoding of `genotypeToIdx`). -/
def gene0 (i : Fin 81) : ℕ := i.val / 27

/-- Zygosity of gene 1 (`Genotype.gene1`). -/
def gene1 (i : Fin 81) : ℕ := i.val / 9 % 3

/-- Zygosity of gene 2 (`Genotype.gene2`). -/
def gene2 (i : Fin 81) : ℕ := i.val / 3 % 3

/-- Zygosity of gene 3 (`Genotype.gene3`). -/
def gene3 (i : Fin 81) : ℕ := i.val % 3

/-- `punnetSquareLookupTable[ga][gb][g]`: relative frequency of offspring
zygosity `g` from parent zygosities `ga`, `gb` (values `{0,1,2,4}`). -/
def punnet : ℕ → ℕ → ℕ → ℕ
  | 0, 0, 0 => 4 | 0, 0, _ => 0
  | 0, 1, 0 => 2 | 0, 1, 1 => 2 | 0, 1, _ => 0
  | 0, 2, 1 => 4 | 0, 2, _ => 0
  | 1, 0, 0 => 2 | 1, 0, 1 => 2 | 1, 0, _ => 0
  | 1, 1, 0 => 1 | 1, 1, 1 => 2 | 1, 1, 2 => 1 | 1, 1, _ => 0
  | 1, 2, 1 => 2 | 1, 2, 2 => 2 | 1, 2, _ => 0
  | 2, 0, 1 => 4 | 2, 0, _ => 0
  | 2, 1, 1 => 2 | 2, 1, 2 => 2 | 2, 1, _ => 0
  | 2, 2, 2 => 4 | 2, 2, _ => 0
  | _, _, _ => 0

/-- Per-offspring weight factor of `breedInto`'s inner loops: the product of
the four per-gene Punnett frequencies `w0*w1*w2*w3` selecting offspring
index `g` from parents `ga`, `gb`.  (The quadruple loop of `breedInto`
touches every offspring gene combination exactly once, so the contribution
of one parent pair to offspring `g` is exactly this product times the
weight.) -/
def punnetWeight (ga gb g : Fin 81) : ℕ :=
  punnet (gene0 ga) (gene0 gb) (gene0 g) * punnet (gene1 ga) (gene1 gb) (gene1 g) *
  punnet (gene2 ga) (gene2 gb) (gene2 g) * punnet (gene3 ga) (gene3 gb) (gene3 g)

/-- `breedInto`: accumulate `weight * w0 * w1 * w2 * w3` into every offspring
slot, with `uint64` wrap-around on the multiply chain and on the addition. -/
def breedInto (gd : GeneticDistribution) (weight : ℕ) (ga gb : Fin 81) :
    GeneticDistribution :=
  fun g => (gd g + weight * punnetWeight ga gb g % M) % M

/-- The accumulation loop of `Breed`: for every pair of nonzero-weight
genotypes, `breedInto` the product of the weights (as `uint64`, i.e. mod
`2^64`). -/
def breedAcc (gda gdb : GeneticDistribution) : GeneticDistribution :=
  (List.finRange 81).foldl
    (fun acc ga =>
      if gda ga = 0 then acc
      else
        (List.finRange 81).foldl
          (fun acc2 gb =>
            if gdb gb = 0 then acc2
            else breedInto acc2 (gda ga * gdb gb % M) ga gb)
          acc)
    zeroDist

/-- `stripCommon2`: the first loop of `gcd`, removing the largest common
power of two (Go: `for (u|v)&1 == 0 { shift++; u >>= 1; v >>= 1 }`).
The `u = 0` guard is unreachable: `gcd` only enters the loop with `u ≠ 0`. -/
def stripCommon2 (u v shift : ℕ) : ℕ × ℕ × ℕ :=
  if u = 0 then (u, v, shift)
  else if u % 2 = 0 ∧ v % 2 = 0 then stripCommon2 (u / 2) (v / 2) (shift + 1)
  else (u, v, shift)
termination_by u
decreasing_by exact Nat.div_lt_self (Nat.pos_of_ne_zero (by assumption)) one_lt_two

/-- The second loop of `gcd`, removing remaining factors of two from `u`
(Go: `for u&1 == 0 { u >>= 1 }`).  The `u = 0` guard is unreachable: the
caller passes `u ≠ 0`. -/
def oddify (u : ℕ) : ℕ :=
  if u = 0 then 0
  else if u % 2 = 0 then oddify (u / 2)
  else u
termination_by u
decreasing_by exact Nat.div_lt_self (Nat.pos_of_ne_zero (by assumption)) one_lt_two

/-- The main subtraction loop of `gcd` (Go: `for v != 0 { ... v -= u }`;
the in-place `for v&1 == 0 { v >>= 1 }` is `oddify`), entered with `u` odd
and nonzero; the `u = 0` guard is unreachable. -/
def gcdLoop (u v : ℕ) : ℕ :=
  if u = 0 then 0
  else if v = 0 then u
  else if u > oddify v then gcdLoop (oddify v) (u - oddify v)
  else gcdLoop u (oddify v - u)
termination_by u + v
decreasing_by
  · have hv : 0 < v := Nat.pos_of_ne_zero (by assumption)
    omega
  · have hv' : oddify v ≤ v := by
      clear * -
      induction v using Nat.strong_induction_on with
      | _ v ih =>
        rw [oddify]
        split
        · omega
        · split
          · exact le_trans
              (ih (v / 2) (Nat.div_lt_self (Nat.pos_of_ne_zero (by assumption)) one_lt_two))
              (Nat.div_le_self v 2)
          · exact le_refl v
    have hu : 0 < u := Nat.pos_of_ne_zero (by assumption)
    omega

/-- The binary GCD of the source (`func gcd(u, v uint64) uint64`):
`u << shift` is `u * 2 ^ shift`. -/
def gcd (u v : ℕ) : ℕ :=
  if u = 0 then v
  else if v = 0 then u
  else
    match stripCommon2 u v 0 with
    | (u', v', shift) => gcdLoop (oddify u') v' * 2 ^ shift

/-- The GCD chain of `reduce`: `g := dist[0]; for p in dist[1:] { g = gcd(g, p) }`.
(The source's early escapes when the running GCD hits 1 do not change the
final value: `gcd 1 p = 1`, so the chain is constant 1 from then on and the
`g == 1` test after the loop takes the same branch.) -/
def reduceGcd (d : GeneticDistribution) : ℕ :=
  ((List.finRange 81).drop 1).foldl (fun a i => gcd a (d i)) (d ⟨0, by omega⟩)

/-- The canonical reduction (`func reduce(dist *[81]uint64)`): divide every
entry by the GCD of all entries. -/
def reduce (d : GeneticDistribution) : GeneticDistribution :=
  if d = zeroDist then d
  else if reduceGcd d = 1 then d
  else fun i => d i / reduceGcd d

/-- `GeneticDistribution.Breed`: accumulate all parent pairs, then reduce. -/
def Breed (gda gdb : GeneticDistribution) : GeneticDistribution :=
  reduce (breedAcc gda gdb)

/-! Facts about the GCD chain of `reduce` and lowest terms. -/

/-- The list of all 81 weights of a distribution, in index order. -/
def allWeights (d : GeneticDistribution) : List ℕ := (List.finRange 81).map d

/-- GCD of a list of weights, as folded by `reduce`'s loop. -/
def listGcd (l : List ℕ) : ℕ := l.foldl Nat.gcd 0

/-- The claim-level notion of "lowest terms": the GCD of the nonzero
weights is 1. -/
def lowestTerms (d : GeneticDistribution) : Prop :=
  listGcd ((allWeights d).filter (fun w => w ≠ 0)) = 1

instance (d : GeneticDistribution) : Decidable (lowestTerms d) := by
  unfold lowestTerms; infer_instance

/-- One parent pair's contribution to offspring slot `g`. -/
def breedTerm (a b : GeneticDistribution) (ga gb g : Fin 81) : ℕ :=
  (a ga * b gb % M) * punnetWeight ga gb g

end flower

namespace breedgraph

open flower

/-- A species, reduced to what the breeding-graph code reads from it: the
`[81]string` phenotype table (`Species.Phenotype` is a plain lookup). -/
def Species : Type := Fin 81 → String

/-- A `Test`: the tie-break priority (a Go `int`) and the pure strategy.
The `name` field is display-only and not used by any claim, so it is
omitted; costs are exact rationals (see the module conventions). -/
structure Test where
  priority : ℤ
  test : GeneticDistribution → GeneticDistribution × ℚ

/-- `NoTest`: the identity transform with cost 1 and priority 0. -/
def NoTest : Test := ⟨0, fun gd => (gd, 1)⟩

/-- Sum of all weights accumulated by `Visit` into the `uint64` variable
`totalChances`, which wraps modulo `2 ^ 64`.  `Visit` skips zero entries,
which contribute nothing; since `uint64` addition is associative and
commutative modulo `2 ^ 64`, the running wrap equals one final reduction
of the exact sum. -/
def totalChances (gd : GeneticDistribution) : ℕ := (∑ g : Fin 81, gd g) % M

/-- Sum of the weights of genotypes whose phenotype is allowed, accumulated
into the `uint64` variable `succChances`, wrapping modulo `2 ^ 64`. -/
def succChances (s : Species) (phenotypes : List String) (gd : GeneticDistribution) : ℕ :=
  (∑ g : Fin 81, if s g ∈ phenotypes then gd g else 0) % M

/-- The distribution with every disallowed-phenotype entry zeroed
(the `mgd.SetOdds(g, 0)` calls inside `gd.Update`), before reduction. -/
def maskDist (s : Species) (phenotypes : List String) (gd : GeneticDistribution) :
    GeneticDistribution :=
  fun g => if s g ∈ phenotypes then gd g else 0

attribute [irreducible] succChances totalChances

/-- The strategy function of `PhenotypeTest`: zero disallowed entries,
reduce (via `Update`), and cost `totalChances / succChances`; if nothing
survives, return the zero sentinel with cost 0. -/
def phenotypeTestFn (s : Species) (phenotypes : List String)
    (gd : GeneticDistribution) : GeneticDistribution × ℚ :=
  if succChances s phenotypes gd = 0 then (zeroDist, 0)
  else (reduce (maskDist s phenotypes gd),
    (totalChances gd : ℚ) / (succChances s phenotypes gd : ℚ))

/-- `PhenotypeTest(s, phenotypes...)`: priority is the allowed-set size. -/
def PhenotypeTest (s : Species) (phenotypes : List String) : Test :=
  ⟨phenotypes.length, phenotypeTestFn s phenotypes⟩

/-! The subset enumerator of `PhenotypeTestsUpToSize`. -/

/-- One increment step of the bit-array subset enumerator (the nested
`next` closure of `PhenotypeTestsUpToSize`): find the lowest set bit `i`
and clear it; if `i` was the highest-order position, enumeration is over
(`none` models Go's `return false`); if bit `i+1` is clear, set it;
otherwise set bit 0 and increment the remainder (Go recurses on
`bits[1:]`, so here the freshly set bit 0 is prepended to the recursive
result). -/
def next (bits : List Bool) : Option (List Bool) :=
  match h : bits.findIdx? (fun b => b) with
  | none => none
  | some i =>
    if i + 1 = bits.length then none
    else if ((bits.set i false).getD (i + 1) false) = false then
      some ((bits.set i false).set (i + 1) true)
    else
      match next ((bits.set i false).drop 1) with
      | none => none
      | some r => some (true :: r)
termination_by bits.length
decreasing_by
  have hi : i < bits.length := (List.findIdx?_eq_some_iff_getElem.mp h).1
  rw [List.length_drop, List.length_set]
  omega

/-- All length-`n` bit vectors with exactly `sz` bits set, listed in the
order the enumerator visits them (ascending colexicographic order).  This
is the specification-side description of the enumeration; the theorems
below identify the iterated `next` run with this list. -/
def colexList : ℕ → ℕ → List (List Bool)
  | n, 0 => [List.replicate n false]
  | 0, _ + 1 => []
  | n + 1, sz + 1 =>
      (colexList n (sz + 1)).map (· ++ [false]) ++ (colexList n sz).map (· ++ [true])

/-- The enumeration loop of `PhenotypeTestsUpToSize`: record the current
vector, stop when `next` reports exhaustion.  (The Go loop is unbounded;
the fuel argument only bounds the number of iterations modelled, and the
theorems below only ever run it with fuel exceeding the enumeration
length.) -/
def enumFrom : ℕ → List Bool → List (List Bool)
  | 0, _ => []
  | fuel + 1, bv =>
      bv :: (match next bv with
        | none => []
        | some bv2 => enumFrom fuel bv2)

/-- The initial bit vector of each size block (`bits[i] = (i < sz)`). -/
def initBits (n sz : ℕ) : List Bool := (List.range n).map (fun i => decide (i < sz))

/-- The per-size enumeration of `PhenotypeTestsUpToSize`: start from the
initial vector, iterate `next` until exhaustion.  `2 ^ n` fuel strictly
exceeds the number of iterations (proved below). -/
def enumMasks (n sz : ℕ) : List (List Bool) := enumFrom (2 ^ n) (initBits n sz)

/-- Select the phenotypes at the set bit positions (the `ps` construction
inside the enumeration loop: `for i := range bits { if bits[i] { ps =
append(ps, phenotypes[i]) } }`). -/
def maskedPhenos : List String → List Bool → List String
  | _, [] => []
  | [], _ :: _ => []
  | p :: ps, b :: bv =>
      if b then p :: maskedPhenos ps bv else maskedPhenos ps bv

/-- `Species.Phenotypes()`: the distinct strings of the full 81-entry
phenotype table (for a 3-gene species this includes the empty string that
pads the unused 54 slots, exactly as in the source; the Go map-iteration
order is arbitrary, this model fixes first-occurrence order). -/
def Phenotypes (s : Species) : List String := ((List.finRange 81).map s).dedup

/-- The size cap applied by `PhenotypeTestsUpToSize`:
`if size >= len(phenotypes) { size = len(phenotypes) - 1 }`. -/
def cappedSize (numPhenotypes size : ℕ) : ℕ :=
  if size ≥ numPhenotypes then numPhenotypes - 1 else size

/-- The list of phenotype subsets enumerated by `PhenotypeTestsUpToSize`
(each inner list is the `ps` argument of one generated `PhenotypeTest`). -/
def phenotypeSubsets (ps : List String) (size : ℕ) : List (List String) :=
  (List.range' 1 (cappedSize ps.length size)).bind
    (fun sz => (enumMasks ps.length sz).map (maskedPhenos ps))

/-- `PhenotypeTestsUpToSize`: one `PhenotypeTest` per enumerated subset. -/
def PhenotypeTestsUpToSize (s : Species) (size : ℕ) : List Test :=
  (phenotypeSubsets (Phenotypes s) size).map (PhenotypeTest s)

/-- The canonical mask of a subset `S` relative to the phenotype list. -/
def theMask (ps : List String) (S : Finset String) : List Bool :=
  ps.map (fun p => decide (p ∈ S))

/-- The 27 phenotypes of the Cosmos table, ordered by genotype index
`idx/3 = 9*g0 + 3*g1 + g2` (gene 0 = R, gene 1 = Y, gene 2 = S; the
fourth gene of a 3-gene species is always homozygous-recessive, so only
indices divisible by 3 are populated):
rryyss rryySs rryySS rrYyss rrYySs rrYySS rrYYss rrYYSs rrYYSS
Rryyss RryySs RryySS RrYyss RrYySs RrYySS RrYYss RrYYSs RrYYSS
RRyyss RRyySs RRyySS RRYyss RRYySs RRYySS RRYYss RRYYSs RRYYSS. -/
def cosmosList : List String :=
  ["White", "White", "White", "Yellow", "Yellow", "White", "Yellow", "Yellow", "Yellow",
   "Pink", "Pink", "Pink", "Orange", "Orange", "Pink", "Orange", "Orange", "Orange",
   "Red", "Red", "Red", "Orange", "Orange", "Red", "Black", "Black", "Red"]

/-- The Cosmos species: the `[81]string` phenotype table built by
`mustSpecies("Cosmos", ...)`; the 54 slots whose fourth gene is nonzero
stay at the empty string, exactly as in the source array. -/
def cosmos : Species :=
  fun i => if i.val % 3 = 0 then cosmosList.getD (i.val / 3) "" else ""

/-! The breeding graph (`Graph`, `vertex`, `edge`, `Expand`). -/

/-- An `edge`: indices of the two parent vertices, the applied test (as
an index into the graph's test list, the model of the `*Test` pointer),
and the edge cost.  The `succ` back-pointer of the source is only read by
the `Edge.Child` accessor, which no claim involves, and is uniquely
determined (each edge object is assigned to at most one vertex), so it is
omitted. -/
structure EdgeData where
  par1 : ℕ
  par2 : ℕ
  testIdx : ℕ
  cost : ℚ
deriving DecidableEq

instance : Inhabited EdgeData := ⟨⟨0, 0, 0, 0⟩⟩

/-- A `vertex`: its distribution and its current best-predecessor edge
(`nil` for seed vertices). -/
structure VertexData where
  gd : GeneticDistribution
  pred : Option EdgeData
deriving DecidableEq

instance : Inhabited VertexData := ⟨⟨zeroDist, none⟩⟩

/-- The graph state: the configured tests, the vertex list in discovery
order (vertex identity = list index, the model of the vertex pointers; the
`vertMap` of the source is the index of the first vertex with a given
distribution), and the generation frontier. -/
structure GState where
  tests : List Test
  verts : List VertexData
  vertFrontier : ℕ

/-- `NewGraph`: one seed vertex per initial flower, no predecessor,
frontier 0. -/
def NewGraph (tests : List Test) (initialFlowers : List GeneticDistribution) : GState :=
  ⟨tests, initialFlowers.map (fun gd => ⟨gd, none⟩), 0⟩

/-- An item on the traversal stack of `visitSubgraphPathingToAllOf`:
a vertex (by index = pointer identity) or an edge (edges are compared by
value, which coincides with pointer identity: an edge value determines the
pair/test candidate that created it, and each candidate is created once). -/
inductive PItem where
  | vtx (i : ℕ)
  | edg (e : EdgeData)
deriving DecidableEq

/-- The items `visitSubgraphPathingToAllOf` pushes when handling an item:
a vertex pushes its best-predecessor edge (if any), an edge pushes its two
parent vertices. -/
def itemSuccs (s : GState) : PItem → List PItem
  | .vtx i =>
    match (s.verts.getD i default).pred with
    | none => []
    | some e => [.edg e]
  | .edg e => [.vtx e.par2, .vtx e.par1]

/-- `visitSubgraphPathingToAllOf`: pop the stack, skip handled items,
record the item and push its successors.  Returns the visit-ordered item
list.  The Go loop is unbounded; the fuel argument only bounds the number
of iterations modelled, and every use below passes fuel exceeding the
worst-case iteration count (proved in `visitRun_spec`). -/
def visitRun (s : GState) : ℕ → List PItem → Finset PItem → List PItem
  | 0, _, _ => []
  | fuel + 1, stk, handled =>
    match stk with
    | [] => []
    | x :: stk =>
      if x ∈ handled then visitRun s fuel stk handled
      else x :: visitRun s fuel (itemSuccs s x ++ stk) (insert x handled)

/-- Fuel that always exceeds the traversal's iteration count (see
`visitRun_spec`). -/
def visitFuel (s : GState) (stk : List PItem) : ℕ :=
  12 * (s.verts.length + stk.length + 1)

/-- The cost an edge item contributes to `pathCost`'s accumulator. -/
def itemCost : PItem → ℚ
  | .vtx _ => 0
  | .edg e => e.cost

/-- `edge.pathCost()`: traverse the subgraph pathing to the edge and sum
the costs of the visited edges (each visited once). -/
def edgePathCost (s : GState) (e : EdgeData) : ℚ :=
  ((visitRun s (visitFuel s [.edg e]) [.edg e] ∅).map itemCost).sum

/-- `vertex.pathCost()`: 0 for a seed, otherwise the path cost of the
best-predecessor edge. -/
def vertexPathCost (s : GState) (i : ℕ) : ℚ :=
  match (s.verts.getD i default).pred with
  | none => 0
  | some e => edgePathCost s e

/-- One candidate produced by a worker: the prospective edge and the
resulting distribution. -/
structure Cand where
  e : EdgeData
  gd : GeneticDistribution

/-- The aggregator's handling of one candidate (the body of the `for
rslts := range rsltsCh` loop): if a vertex for the distribution exists,
replace its best predecessor iff the new path cost is strictly lower, or
tied and the candidate's test has strictly smaller priority (`none`
models the nil-pointer dereference panic when the tie comparison reads
`v.pred.test` of a seed vertex); otherwise materialise a new vertex iff
the keep predicate accepts the distribution. -/
def processCandidate (keep : GeneticDistribution → Bool) (s : GState) (c : Cand) :
    Option GState :=
  match s.verts.findIdx? (fun v => v.gd = c.gd) with
  | some vi =>
    let v := s.verts.getD vi default
    if edgePathCost s c.e < vertexPathCost s vi then
      some ⟨s.tests, s.verts.set vi ⟨v.gd, some c.e⟩, s.vertFrontier⟩
    else if edgePathCost s c.e = vertexPathCost s vi then
      match v.pred with
      | none => none
      | some pe =>
        if (s.tests.getD c.e.testIdx NoTest).priority
            < (s.tests.getD pe.testIdx NoTest).priority then
          some ⟨s.tests, s.verts.set vi ⟨v.gd, some c.e⟩, s.vertFrontier⟩
        else some s
    else some s
  | none =>
    if keep c.gd then some ⟨s.tests, s.verts ++ [⟨c.gd, some c.e⟩], s.vertFrontier⟩
    else some s

/-- Process a list of candidates in order (the single aggregating task). -/
def processList (keep : GeneticDistribution → Bool) :
    GState → List Cand → Option GState
  | s, [] => some s
  | s, c :: cs =>
    match processCandidate keep s c with
    | none => none
    | some s2 => processList keep s2 cs

/-- The candidate batch one worker produces for first-parent index `i`
(the body of the worker's `for i` loop): pair `i` with every `j` in
`[max(frontier, i), N)`, breed, and apply every configured test to the
raw cross; inapplicable results (zero distribution) are skipped. -/
def iBatch (s : GState) (N : ℕ) (i : ℕ) : List Cand :=
  (List.range' (max s.vertFrontier i) (N - max s.vertFrontier i)).flatMap
    (fun j =>
      (List.range s.tests.length).filterMap (fun t =>
        let r := (s.tests.getD t NoTest).test
          (Breed (s.verts.getD i default).gd (s.verts.getD j default).gd)
        if r.1 = zeroDist then none
        else some ⟨⟨i, j, t, r.2⟩, r.1⟩))

/-- The first-parent indices handled by worker `b` of `w` (the static
stride partition `for i := base; i < N; i += totalWorkerCnt`). -/
def workerIdxs (w b N : ℕ) : List ℕ :=
  (List.range N).filter (fun i => i % w = b)

/-- `Graph.Expand`, parametrised by the order in which the per-`i`
candidate batches reach the aggregator (any interleaving of the workers'
batch sequences is a possible channel delivery order); workers read only
the call-start vertex list, the aggregator mutates the evolving state,
and the frontier advances to the call-start vertex count. -/
def expandSched (keep : GeneticDistribution → Bool) (s : GState)
    (batchOrder : List ℕ) : Option GState :=
  match processList keep s (batchOrder.flatMap (iBatch s s.verts.length)) with
  | none => none
  | some s2 => some ⟨s2.tests, s2.verts, s.verts.length⟩

/-- The vertex pairs enumerated by one `Expand` call with frontier
`frontier` and call-start vertex count `N`. -/
def pairsList (frontier N : ℕ) : List (ℕ × ℕ) :=
  (List.range N).flatMap
    (fun i => (List.range' (max frontier i) (N - max frontier i)).map (fun j => (i, j)))

/-- The vertex pairs an `Expand` call started in state `s` cross-breeds. -/
def pairedIn (s : GState) : List (ℕ × ℕ) := pairsList s.vertFrontier s.verts.length

/-- Run a sequence of `Expand` calls (each with its own keep predicate and
batch delivery order) and collect the state at the start of each call;
`none` models a run that panics. -/
def runTrace : List ((GeneticDistribution → Bool) × List ℕ) → GState →
    Option (List GState)
  | [], _ => some []
  | (keep, ord) :: rest, s =>
    match expandSched keep s ord with
    | none => none
    | some s2 =>
      match runTrace rest s2 with
      | none => none
      | some sts => some (s :: sts)

/-- Run a sequence of `Expand` calls and return the final state
(`none` models a run that panics). -/
def runSteps : List ((GeneticDistribution → Bool) × List ℕ) → GState →
    Option GState
  | [], s => some s
  | (keep, ord) :: rest, s =>
    match expandSched keep s ord with
    | none => none
    | some s2 => runSteps rest s2

/-- The parents-precede-children invariant: every best-predecessor edge of
a vertex references only lower-indexed (earlier-created) vertices. -/
def predParentsBelow (i : ℕ) : Option EdgeData → Prop
  | none => True
  | some e => e.par1 < i ∧ e.par2 < i

instance (i : ℕ) (o : Option EdgeData) : Decidable (predParentsBelow i o) :=
  match o with
  | none => Decidable.isTrue trivial
  | some _ => inferInstanceAs (Decidable (_ ∧ _))

def WellFormed (s : GState) : Prop :=
  ∀ i < s.verts.length, predParentsBelow i (s.verts.getD i default).pred

instance (s : GState) : Decidable (WellFormed s) := by
  unfold WellFormed
  infer_instance

/-- A best-predecessor slot references only vertices that exist: both
parent indices of the stored edge (if any) are below `n`, the vertex
count. -/
def predInRange (n : ℕ) : Option EdgeData → Prop
  | none => True
  | some e => e.par1 < n ∧ e.par2 < n

instance (n : ℕ) (o : Option EdgeData) : Decidable (predInRange n o) :=
  match o with
  | none => Decidable.isTrue trivial
  | some _ => inferInstanceAs (Decidable (_ ∧ _))

/-- Every stored best-predecessor edge references existing vertices.  This
holds in every state the engine can reach (`runSteps_predOK`): candidate
edges are always built from indices below the call-start vertex count. -/
def PredOK (s : GState) : Prop :=
  ∀ i < s.verts.length, predInRange s.verts.length (s.verts.getD i default).pred

instance (s : GState) : Decidable (PredOK s) := by
  unfold PredOK
  infer_instance

/-- The path cost as the claim words it (C4): an edge contributes its own
cost plus the path costs of both of its parent vertices, with no
deduplication of shared ancestors.  This is the claim-side definition, to
be compared with the source-side `vertexPathCost`. -/
def claimPathCost (s : GState) : ℕ → ℕ → ℚ
  | 0, _ => 0
  | fuel + 1, i =>
    match (s.verts.getD i default).pred with
    | none => 0
    | some e => e.cost + claimPathCost s fuel e.par1 + claimPathCost s fuel e.par2

/-- The set of distributions present in the graph (the key set of
`vertMap`; `vertMap` and `verts` hold the same distributions). -/
def gdSet (s : GState) : Finset GeneticDistribution :=
  (s.verts.map VertexData.gd).toFinset

/-- `order` is a possible batch delivery order for `w` workers over
first-parent indices `[0, N)`: every index is delivered exactly once, and
each worker's own indices (its stride class) are delivered in increasing
order (a worker sends its batches sequentially); across workers any
interleaving may occur. -/
def validOrder (w N : ℕ) (order : List ℕ) : Prop :=
  order.Perm (List.range N) ∧ ∀ b < w, (workerIdxs w b N).Sublist order

instance (w N : ℕ) (o : List ℕ) : Decidable (validOrder w N o) := by
  unfold validOrder
  infer_instance

/-- A test's cost is at least 1 whenever the test is applicable (does not
return the zero sentinel). -/
def CostOK (t : Test) : Prop :=
  ∀ gd, (t.test gd).1 ≠ zeroDist → 1 ≤ (t.test gd).2

/-- Concrete data for exercising the graph: three distinct distributions,
a constant test that maps every cross to `cGDC` at cost 1, two seed
flowers, and a two-call expansion schedule. -/
def cGDA : GeneticDistribution := fun _ => 1

def cGDB : GeneticDistribution := fun _ => 2

def cGDC : GeneticDistribution := fun _ => 3

def cTest : Test := ⟨0, fun _ => (cGDC, 1)⟩

def cSeeds : List GeneticDistribution := [cGDA, cGDB]

def cSteps : List ((GeneticDistribution → Bool) × List ℕ) :=
  [(fun _ => true, [0, 1]), (fun _ => true, [0, 1, 2])]

/-- The state at the start of the second `Expand` call on `cSeeds`. -/
def cState1 : GState :=
  ⟨[cTest], [⟨cGDA, none⟩, ⟨cGDB, none⟩, ⟨cGDC, some ⟨0, 0, 0, 1⟩⟩], 2⟩

/-- A state with a seed and one bred vertex, and a tying candidate for it. -/
def c3S : GState := ⟨[cTest], [⟨cGDA, none⟩, ⟨cGDC, some ⟨0, 0, 0, 5⟩⟩], 0⟩

def c3C : Cand := ⟨⟨1, 1, 0, 1⟩, cGDC⟩

def CostInv (s : GState) : Prop :=
  ∀ (i : ℕ) (e : EdgeData), (s.verts.getD i default).pred = some e → 1 ≤ e.cost

/-- The state after the first `Expand` call on `cSeeds` when batch 1
arrives before batch 0: the tie for vertex `cGDC` is won by the
first-delivered candidate, edge `(1,1)`. -/
def cState1b : GState :=
  ⟨[cTest], [⟨cGDA, none⟩, ⟨cGDB, none⟩, ⟨cGDC, some ⟨1, 1, 0, 1⟩⟩], 2⟩

def itemOK (s : GState) : PItem → Prop
  | .vtx _ => True
  | .edg e => e.par1 < s.verts.length ∧ e.par2 < s.verts.length

def graphU (s : GState) (stk : List PItem) : Finset PItem :=
  stk.toFinset ∪ (Finset.range s.verts.length).image PItem.vtx ∪
    (Finset.range s.verts.length).biUnion
      (fun i => match (s.verts.getD i default).pred with
        | none => ∅
        | some e => {PItem.edg e})

/-- Distributions and tests for the shared-ancestor (diamond) scenario:
`c4T1` produces `cGDD` at cost 8, `c4T2` produces `cGDE` at cost 1. -/
def cGDD : GeneticDistribution := fun _ => 4

def cGDE : GeneticDistribution := fun _ => 5

def c4T1 : Test := ⟨0, fun _ => (cGDD, 8)⟩

def c4T2 : Test := ⟨1, fun _ => (cGDE, 1)⟩

/-- Two `Expand` calls: the first keeps only `cGDD`, the second keeps
everything, with batch 1 delivered first. -/
def c4Steps : List ((GeneticDistribution → Bool) × List ℕ) :=
  [(fun gd => decide (gd = cGDD), [0]), (fun _ => true, [1, 0])]

/-- The resulting graph: seed `cGDA`; `cGDD` bred from the seed at cost 8;
`cGDE` bred by self-crossing the `cGDD` vertex, so the cost-8 edge is an
ancestor through BOTH parents of `cGDE`'s predecessor edge. -/
def c4Final : GState :=
  ⟨[c4T1, c4T2],
    [⟨cGDA, none⟩, ⟨cGDD, some ⟨0, 0, 0, 8⟩⟩, ⟨cGDE, some ⟨1, 1, 1, 1⟩⟩], 2⟩

/-- A species whose every genotype has phenotype `"A"`, and a distribution
whose two surviving weights sum to exactly `2 ^ 64`, wrapping the `uint64`
`succChances` accumulator to zero. -/
def c5S : Species := fun _ => "A"

def c5gd : GeneticDistribution :=
  fun g => if g.val = 0 then 1 else if g.val = 1 then M - 1 else 0

/-- A species with an allowed genotype of weight 5 and a disallowed
genotype of weight `2 ^ 64 - 5`: `totalChances` wraps to 0 while
`succChances` is 5, so the test is applicable at cost 0. -/
def c9S : Species := fun g => if g.val = 0 then "A" else "B"

def c9gd : GeneticDistribution :=
  fun g => if g.val = 0 then 5 else if g.val = 1 then M - 5 else 0

end breedgraph

namespace flower

theorem oddify_le (u : ℕ) : oddify u ≤ u := by
  induction u using Nat.strong_induction_on with
  | _ u ih =>
    rw [oddify]
    split
    · omega
    · split
      · exact le_trans
          (ih (u / 2) (Nat.div_lt_self (Nat.pos_of_ne_zero (by assumption)) one_lt_two))
          (Nat.div_le_self u 2)
      · exact le_refl u

theorem oddify_spec (u : ℕ) (hu : u ≠ 0) :
    oddify u % 2 = 1 ∧ oddify u ≠ 0 ∧ ∃ k, u = 2 ^ k * oddify u := by
  induction u using Nat.strong_induction_on with
  | _ u ih =>
    rw [oddify]
    rw [if_neg hu]
    split
    · rename_i heven
      have hhalf : u / 2 ≠ 0 := by omega
      obtain ⟨h1, h2, k, hk⟩ := ih (u / 2) (by omega) hhalf
      refine ⟨h1, h2, k + 1, ?_⟩
      calc u = 2 * (u / 2) := by omega
        _ = 2 * (2 ^ k * oddify (u / 2)) := by conv_lhs => rw [hk]
        _ = 2 ^ (k + 1) * oddify (u / 2) := by rw [pow_succ]; ring
    · exact ⟨by omega, hu, 0, by omega⟩

theorem oddify_of_odd (u : ℕ) (h : u % 2 = 1) : oddify u = u := by
  rw [oddify]
  rw [if_neg (by omega), if_neg (by omega)]

theorem coprime_two_of_odd {n : ℕ} (h : n % 2 = 1) : Nat.Coprime 2 n :=
  Nat.coprime_two_left.mpr (Nat.odd_iff.mpr h)

/-- Stripping powers of two from `v` does not change the gcd with an odd `u`. -/
theorem gcd_oddify_right {u : ℕ} (v : ℕ) (hu : u % 2 = 1) :
    Nat.gcd u (oddify v) = Nat.gcd u v := by
  rcases eq_or_ne v 0 with rfl | hv
  · simp [oddify]
  · obtain ⟨_, _, k, hk⟩ := oddify_spec v hv
    conv_rhs => rw [hk]
    rw [Nat.Coprime.gcd_mul_left_cancel_right]
    exact Nat.Coprime.pow_left k (coprime_two_of_odd hu)

/-- Stripping powers of two from `u` does not change the gcd with an odd `v`,
and is the identity when `u` is odd. -/
theorem gcd_oddify_left {v : ℕ} (u : ℕ) (h : u % 2 = 1 ∨ v % 2 = 1) :
    Nat.gcd (oddify u) v = Nat.gcd u v := by
  rcases eq_or_ne u 0 with rfl | hu
  · simp [oddify]
  · rcases Nat.even_or_odd u with he | ho
    · have hv : v % 2 = 1 := by
        rcases h with h | h
        · exact absurd h (by rw [Nat.even_iff] at he; omega)
        · exact h
      obtain ⟨_, _, k, hk⟩ := oddify_spec u hu
      conv_rhs => rw [hk]
      rw [Nat.Coprime.gcd_mul_left_cancel]
      exact Nat.Coprime.pow_left k (coprime_two_of_odd hv)
    · rw [oddify_of_odd u (Nat.odd_iff.mp ho)]

theorem gcdLoop_eq (u v : ℕ) (hu : u % 2 = 1) : gcdLoop u v = Nat.gcd u v := by
  generalize hm : u + v = m
  induction m using Nat.strong_induction_on generalizing u v with
  | _ m ih =>
    subst hm
    rw [gcdLoop]
    rw [if_neg (by omega)]
    split
    · rename_i hv0
      subst hv0
      exact (Nat.gcd_zero_right u).symm
    · rename_i hv0
      obtain ⟨hodd, hne, -⟩ := oddify_spec v hv0
      rw [← gcd_oddify_right v hu]
      set v' := oddify v with hv'
      have hle : v' ≤ v := oddify_le v
      split
      · rename_i hgt
        rw [ih (v' + (u - v')) (by omega) v' (u - v') hodd rfl]
        rw [Nat.gcd_sub_self_right (by omega), Nat.gcd_comm]
      · rename_i hngt
        rw [ih (u + (v' - u)) (by omega) u (v' - u) hu rfl]
        rw [Nat.gcd_sub_self_right (by omega)]

theorem stripCommon2_spec (u v s : ℕ) (hu : u ≠ 0) :
    ∃ k u' v', stripCommon2 u v s = (u', v', s + k) ∧
        u = 2 ^ k * u' ∧ v = 2 ^ k * v' ∧ u' ≠ 0 ∧
        ¬(u' % 2 = 0 ∧ v' % 2 = 0) := by
  induction u using Nat.strong_induction_on generalizing v s with
  | _ u ih =>
    rw [stripCommon2]
    rw [if_neg hu]
    split
    · rename_i hboth
      obtain ⟨k, u', v', hrec, hu2, hv2, hne, hodd⟩ :=
        ih (u / 2) (by omega) (v / 2) (s + 1) (by omega)
      refine ⟨k + 1, u', v', ?_, ?_, ?_, hne, hodd⟩
      · rw [hrec]; ring_nf
      · have : u = 2 * (u / 2) := by omega
        rw [this, hu2, pow_succ]; ring
      · have : v = 2 * (v / 2) := by omega
        rw [this, hv2, pow_succ]; ring
    · exact ⟨0, u, v, by rw [Nat.add_zero], by rw [pow_zero, one_mul],
        by rw [pow_zero, one_mul], hu, by assumption⟩

/-- The binary GCD computes the mathematical greatest common divisor. -/
theorem gcd_eq_nat_gcd (u v : ℕ) : gcd u v = Nat.gcd u v := by
  rw [gcd]
  split
  · rename_i h; subst h; exact (Nat.gcd_zero_left v).symm
  · split
    · rename_i _ h; subst h; exact (Nat.gcd_zero_right u).symm
    · rename_i hu hv
      obtain ⟨k, u', v', hrec, hu2, hv2, hne, hodd⟩ := stripCommon2_spec u v 0 hu
      rw [hrec]
      have hodd' : oddify u' % 2 = 1 := (oddify_spec u' hne).1
      have h1 : Nat.gcd (oddify u') v' = Nat.gcd u' v' := by
        apply gcd_oddify_left
        omega
      show gcdLoop (oddify u') v' * 2 ^ (0 + k) = Nat.gcd u v
      rw [gcdLoop_eq _ _ hodd', h1, hu2, hv2, Nat.gcd_mul_left, Nat.zero_add]
      ring

theorem foldl_gcd_dvd (l : List ℕ) (x : ℕ) :
    l.foldl Nat.gcd x ∣ x ∧ ∀ y ∈ l, l.foldl Nat.gcd x ∣ y := by
  induction l generalizing x with
  | nil => exact ⟨dvd_refl x, by simp⟩
  | cons a l ih =>
    obtain ⟨h1, h2⟩ := ih (Nat.gcd x a)
    refine ⟨h1.trans (Nat.gcd_dvd_left x a), ?_⟩
    intro y hy
    rcases List.mem_cons.mp hy with rfl | hy
    · exact h1.trans (Nat.gcd_dvd_right x y)
    · exact h2 y hy

theorem foldl_gcd_eq_zero_iff (l : List ℕ) (x : ℕ) :
    l.foldl Nat.gcd x = 0 ↔ x = 0 ∧ ∀ y ∈ l, y = 0 := by
  induction l generalizing x with
  | nil => simp
  | cons a l ih =>
    rw [List.foldl_cons, ih]
    rw [Nat.gcd_eq_zero_iff]
    constructor
    · rintro ⟨⟨hx, ha⟩, hl⟩
      refine ⟨hx, ?_⟩
      intro y hy
      rcases List.mem_cons.mp hy with rfl | hy
      · exact ha
      · exact hl y hy
    · rintro ⟨hx, hl⟩
      exact ⟨⟨hx, hl a (List.mem_cons_self a l)⟩,
        fun y hy => hl y (List.mem_cons_of_mem a hy)⟩

theorem gcd_div_div (x a g : ℕ) (hx : g ∣ x) (ha : g ∣ a) :
    Nat.gcd (x / g) (a / g) = Nat.gcd x a / g := by
  rcases eq_or_ne g 0 with rfl | hg
  · simp at hx ha
    simp [hx, ha]
  · obtain ⟨x', rfl⟩ := hx
    obtain ⟨a', rfl⟩ := ha
    rw [Nat.mul_div_cancel_left x' (Nat.pos_of_ne_zero hg),
      Nat.mul_div_cancel_left a' (Nat.pos_of_ne_zero hg),
      Nat.gcd_mul_left, Nat.mul_div_cancel_left _ (Nat.pos_of_ne_zero hg)]

theorem foldl_gcd_div (l : List ℕ) (x g : ℕ) (hx : g ∣ x)
    (hl : ∀ y ∈ l, g ∣ y) :
    (l.map (· / g)).foldl Nat.gcd (x / g) = l.foldl Nat.gcd x / g := by
  induction l generalizing x with
  | nil => simp
  | cons a l ih =>
    rw [List.map_cons, List.foldl_cons, List.foldl_cons,
      gcd_div_div x a g hx (hl a (List.mem_cons_self a l))]
    exact ih (Nat.gcd x a) (Nat.dvd_gcd hx (hl a (List.mem_cons_self a l)))
      (fun y hy => hl y (List.mem_cons_of_mem a hy))

theorem foldl_gcd_filter_nonzero (l : List ℕ) (x : ℕ) :
    (l.filter (fun w => w ≠ 0)).foldl Nat.gcd x = l.foldl Nat.gcd x := by
  induction l generalizing x with
  | nil => rfl
  | cons a l ih =>
    by_cases ha : a = 0
    · subst ha
      rw [List.foldl_cons]
      rw [show (((0 : ℕ) :: l).filter (fun w => w ≠ 0)) = l.filter (fun w => w ≠ 0) by simp]
      rw [ih, Nat.gcd_zero_right]
    · rw [show ((a :: l).filter (fun w => w ≠ 0)) = a :: l.filter (fun w => w ≠ 0) by
        simp [ha]]
      rw [List.foldl_cons, List.foldl_cons, ih]

theorem finRange_81_eq :
    List.finRange 81 = ⟨0, by omega⟩ :: (List.finRange 81).drop 1 := by decide

theorem zeroDist_iff (d : GeneticDistribution) : d = zeroDist ↔ ∀ i, d i = 0 := by
  constructor
  · intro h i; rw [h]; rfl
  · intro h; funext i; exact h i

/-- `reduceGcd` equals the plain left GCD fold over all 81 weights. -/
theorem reduceGcd_eq_listGcd (d : GeneticDistribution) :
    reduceGcd d = listGcd (allWeights d) := by
  rw [reduceGcd, listGcd, allWeights]
  conv_rhs => rw [finRange_81_eq]
  rw [List.map_cons, List.foldl_cons, Nat.gcd_zero_left, List.foldl_map]
  congr 1
  funext a i
  exact gcd_eq_nat_gcd a (d i)

theorem reduceGcd_dvd (d : GeneticDistribution) (i : Fin 81) : reduceGcd d ∣ d i := by
  rw [reduceGcd_eq_listGcd]
  exact (foldl_gcd_dvd (allWeights d) 0).2 (d i)
    (List.mem_map_of_mem d (List.mem_finRange i))

theorem reduceGcd_ne_zero (d : GeneticDistribution) (hd : d ≠ zeroDist) :
    reduceGcd d ≠ 0 := by
  rw [reduceGcd_eq_listGcd, listGcd]
  intro h
  obtain ⟨-, h2⟩ := (foldl_gcd_eq_zero_iff (allWeights d) 0).mp h
  apply hd
  rw [zeroDist_iff]
  intro i
  exact h2 (d i) (List.mem_map_of_mem d (List.mem_finRange i))

/-- Any `reduce` result is the zero sentinel or in lowest terms. -/
theorem reduce_lowestTerms (d : GeneticDistribution) :
    reduce d = zeroDist ∨ lowestTerms (reduce d) := by
  rw [reduce]
  split
  · rename_i h; exact Or.inl h
  · rename_i hd
    split
    · rename_i hg
      right
      rw [lowestTerms, listGcd, foldl_gcd_filter_nonzero, ← listGcd, ← reduceGcd_eq_listGcd]
      exact hg
    · rename_i hg
      right
      rw [lowestTerms, listGcd, foldl_gcd_filter_nonzero]
      have hmap : allWeights (fun i => d i / reduceGcd d) = (allWeights d).map (· / reduceGcd d) := by
        rw [allWeights, allWeights, List.map_map]
        rfl
      rw [hmap]
      have h0 : (0 : ℕ) = 0 / reduceGcd d := (Nat.zero_div _).symm
      rw [h0, foldl_gcd_div (allWeights d) 0 (reduceGcd d) (dvd_zero _) ?hdvd]
      · rw [← listGcd, ← reduceGcd_eq_listGcd]
        exact Nat.div_self (Nat.pos_of_ne_zero (reduceGcd_ne_zero d hd))
      case hdvd =>
        intro y hy
        obtain ⟨i, -, rfl⟩ := List.mem_map.mp hy
        exact reduceGcd_dvd d i

/-! Commutativity of `Breed`. -/

theorem punnet_symm (x y k : ℕ) : punnet x y k = punnet y x k := by
  rcases x with _|_|_|x <;> rcases y with _|_|_|y <;> rcases k with _|_|_|k <;> rfl

theorem punnetWeight_symm (ga gb g : Fin 81) :
    punnetWeight ga gb g = punnetWeight gb ga g := by
  rw [punnetWeight, punnetWeight, punnet_symm (gene0 ga), punnet_symm (gene1 ga),
    punnet_symm (gene2 ga), punnet_symm (gene3 ga)]

theorem M_pos : 0 < M := by unfold M; positivity

theorem M_val : M = 18446744073709551616 := by norm_num [M]

theorem mod_add3_M (x t s : ℕ) : (x + t % M + s) % M = (x + (t + s)) % M := by
  rw [M_val]; omega

theorem breed_inner_char (a b : GeneticDistribution) (ga : Fin 81)
    (l : List (Fin 81)) (acc : GeneticDistribution) (g : Fin 81)
    (hacc : acc g < M) :
    (l.foldl (fun acc2 gb =>
        if b gb = 0 then acc2 else breedInto acc2 (a ga * b gb % M) ga gb) acc) g
    = (acc g + (l.map (fun gb => breedTerm a b ga gb g)).sum) % M := by
  induction l generalizing acc with
  | nil => simp [Nat.mod_eq_of_lt hacc]
  | cons gb l ih =>
    rw [List.foldl_cons, List.map_cons, List.sum_cons]
    by_cases hb : b gb = 0
    · rw [if_pos hb, ih acc hacc]
      have : breedTerm a b ga gb g = 0 := by
        rw [breedTerm, hb, Nat.mul_zero, Nat.zero_mod, Nat.zero_mul]
      rw [this, Nat.zero_add]
    · rw [if_neg hb]
      rw [ih (breedInto acc (a ga * b gb % M) ga gb) (Nat.mod_lt _ M_pos)]
      rw [breedInto]
      rw [Nat.mod_add_mod]
      exact mod_add3_M (acc g) (breedTerm a b ga gb g) _

theorem breed_outer_char (a b : GeneticDistribution)
    (l : List (Fin 81)) (acc : GeneticDistribution) (g : Fin 81)
    (hacc : acc g < M) :
    (l.foldl (fun acc1 ga =>
        if a ga = 0 then acc1
        else (List.finRange 81).foldl (fun acc2 gb =>
          if b gb = 0 then acc2 else breedInto acc2 (a ga * b gb % M) ga gb) acc1) acc) g
    = (acc g + (l.map (fun ga =>
        ((List.finRange 81).map (fun gb => breedTerm a b ga gb g)).sum)).sum) % M := by
  induction l generalizing acc with
  | nil => simp [Nat.mod_eq_of_lt hacc]
  | cons ga l ih =>
    rw [List.foldl_cons, List.map_cons, List.sum_cons]
    by_cases ha : a ga = 0
    · rw [if_pos ha, ih acc hacc]
      have hz : ((List.finRange 81).map (fun gb => breedTerm a b ga gb g)).sum = 0 := by
        apply List.sum_eq_zero
        intro x hx
        obtain ⟨gb, -, rfl⟩ := List.mem_map.mp hx
        rw [breedTerm, ha, Nat.zero_mul, Nat.zero_mod, Nat.zero_mul]
      rw [hz, Nat.zero_add]
    · rw [if_neg ha]
      have hlt : ((List.finRange 81).foldl (fun acc2 gb =>
          if b gb = 0 then acc2 else breedInto acc2 (a ga * b gb % M) ga gb) acc) g < M := by
        rw [breed_inner_char a b ga _ acc g hacc]
        exact Nat.mod_lt _ M_pos
      rw [ih _ hlt, breed_inner_char a b ga _ acc g hacc, Nat.mod_add_mod,
        Nat.add_assoc]

/-- `breedAcc` as a double sum over all parent pairs, mod `2^64`. -/
theorem breedAcc_char (a b : GeneticDistribution) (g : Fin 81) :
    breedAcc a b g = (∑ ga : Fin 81, ∑ gb : Fin 81, breedTerm a b ga gb g) % M := by
  have h2 : (∑ ga : Fin 81, ∑ gb : Fin 81, breedTerm a b ga gb g)
      = ((List.finRange 81).map (fun ga =>
          ((List.finRange 81).map (fun gb => breedTerm a b ga gb g)).sum)).sum := by
    rw [Fin.sum_univ_def]
    exact congrArg List.sum
      (List.map_congr_left (fun ga _ => Fin.sum_univ_def (fun gb => breedTerm a b ga gb g)))
  rw [breedAcc, breed_outer_char a b _ zeroDist g M_pos, h2]
  rw [show zeroDist g = 0 from rfl, Nat.zero_add]

theorem breedAcc_comm (a b : GeneticDistribution) : breedAcc a b = breedAcc b a := by
  funext g
  rw [breedAcc_char, breedAcc_char]
  have h : (∑ ga : Fin 81, ∑ gb : Fin 81, breedTerm a b ga gb g)
      = (∑ ga : Fin 81, ∑ gb : Fin 81, breedTerm b a ga gb g) := by
    rw [Finset.sum_comm]
    apply Finset.sum_congr rfl
    intro gb _
    apply Finset.sum_congr rfl
    intro ga _
    rw [breedTerm, breedTerm, Nat.mul_comm (a ga) (b gb), punnetWeight_symm]
  rw [h]

/-- `Breed` is commutative. -/
theorem Breed_comm (a b : GeneticDistribution) : Breed a b = Breed b a := by
  rw [Breed, Breed, breedAcc_comm]

/-- `reduce` never turns a nonzero distribution into the zero sentinel. -/
theorem reduce_ne_zero (d : GeneticDistribution) (hd : d ≠ zeroDist) :
    reduce d ≠ zeroDist := by
  rw [reduce]
  rw [if_neg hd]
  split
  · exact hd
  · intro h
    apply hd
    rw [zeroDist_iff] at h ⊢
    intro i
    have hdvd := reduceGcd_dvd d i
    have hne := reduceGcd_ne_zero d hd
    have hi := h i
    obtain ⟨c, hc⟩ := hdvd
    rw [hc, Nat.mul_div_cancel_left c (Nat.pos_of_ne_zero hne)] at hi
    rw [hc, hi, Nat.mul_zero]

/-- C7: `Breed` is commutative. -/
theorem claim_C7 (a b : GeneticDistribution) : Breed a b = Breed b a :=
  Breed_comm a b

/-- C8: every `Breed` result is the all-zero sentinel or is in lowest
terms: the GCD of its nonzero weights is 1 (the reduction step enforces
this for every distribution construction). -/
theorem claim_C8 (a b : GeneticDistribution) :
    Breed a b = zeroDist ∨ lowestTerms (Breed a b) :=
  reduce_lowestTerms (breedAcc a b)

/-- C10: the binary GCD is total (it is a function defined by well-founded
recursion) and returns the mathematical greatest common divisor, with
`gcd u 0 = u`, `gcd 0 v = v` and `gcd 0 0 = 0`; consequently the GCD
computed by `reduce`'s chain divides every entry it is divided into. -/
theorem claim_C10 :
    (∀ u v, gcd u v = Nat.gcd u v) ∧
    (∀ u, gcd u 0 = u) ∧
    (∀ v, gcd 0 v = v) ∧
    gcd 0 0 = 0 ∧
    (∀ (d : GeneticDistribution) (i : Fin 81), reduceGcd d ∣ d i) := by
  refine ⟨gcd_eq_nat_gcd, ?_, ?_, ?_, reduceGcd_dvd⟩
  · intro u
    rw [gcd_eq_nat_gcd, Nat.gcd_zero_right]
  · intro v
    rw [gcd_eq_nat_gcd, Nat.gcd_zero_left]
  · rw [gcd_eq_nat_gcd, Nat.gcd_zero_left]

end flower

namespace breedgraph

open flower

attribute [local semireducible] Rat.add Rat.mul Rat.sub Rat.inv

theorem succChances_def (s : Species) (phenotypes : List String)
    (gd : GeneticDistribution) :
    succChances s phenotypes gd
      = (∑ g : Fin 81, if s g ∈ phenotypes then gd g else 0) % M := by
  rw [succChances]

theorem totalChances_def (gd : GeneticDistribution) :
    totalChances gd = (∑ g : Fin 81, gd g) % M := by
  rw [totalChances]

/-- If no genotype of nonzero weight is allowed, the exact surviving sum is
zero (and hence so is its wrapped value). -/
theorem succSum_eq_zero_of_no_survivor (s : Species) (phenotypes : List String)
    (gd : GeneticDistribution) (hno : ¬∃ g, gd g ≠ 0 ∧ s g ∈ phenotypes) :
    (∑ g : Fin 81, if s g ∈ phenotypes then gd g else 0) = 0 := by
  apply Finset.sum_eq_zero
  intro g _
  split
  · rename_i hs
    by_contra hg
    exact hno ⟨g, hg, hs⟩
  · rfl

theorem succChances_eq_zero_of_no_survivor (s : Species) (phenotypes : List String)
    (gd : GeneticDistribution) (hno : ¬∃ g, gd g ≠ 0 ∧ s g ∈ phenotypes) :
    succChances s phenotypes gd = 0 := by
  rw [succChances, succSum_eq_zero_of_no_survivor s phenotypes gd hno, Nat.zero_mod]

/-- A nonzero wrapped `succChances` still guarantees a surviving genotype
(the converse fails: survivors can wrap the accumulator to zero). -/
theorem exists_survivor_of_succChances_ne_zero (s : Species)
    (phenotypes : List String) (gd : GeneticDistribution)
    (hz : succChances s phenotypes gd ≠ 0) :
    ∃ g, gd g ≠ 0 ∧ s g ∈ phenotypes := by
  by_contra hno
  exact hz (succChances_eq_zero_of_no_survivor s phenotypes gd hno)

theorem maskDist_ne_zero (s : Species) (phenotypes : List String)
    (gd : GeneticDistribution) (h : ∃ g, gd g ≠ 0 ∧ s g ∈ phenotypes) :
    maskDist s phenotypes gd ≠ zeroDist := by
  obtain ⟨g, hg, hs⟩ := h
  intro hz
  have := congrFun hz g
  rw [maskDist] at this
  simp only [if_pos hs] at this
  exact hg this

theorem findIdx?_repFalse_true (k : ℕ) (t : List Bool) (i : ℕ) :
    List.findIdx? (fun b => b) (List.replicate k false ++ true :: t) i = some (i + k) := by
  induction k generalizing i with
  | zero => simp [List.findIdx?_cons]
  | succ k ih =>
    rw [List.replicate_succ, List.cons_append, List.findIdx?_cons]
    simp only [Bool.false_eq_true, if_false]
    rw [ih (i + 1)]
    congr 1
    omega

theorem findIdx?_repFalse (k : ℕ) (i : ℕ) :
    List.findIdx? (fun b => b) (List.replicate k false) i = none := by
  induction k generalizing i with
  | zero => rfl
  | succ k ih =>
    rw [List.replicate_succ, List.findIdx?_cons]
    simp only [Bool.false_eq_true, if_false]
    exact ih (i + 1)

theorem set_repFalse_true (k : ℕ) (t : List Bool) :
    (List.replicate k false ++ true :: t).set k false
      = List.replicate k false ++ false :: t := by
  rw [List.set_append]
  rw [List.length_replicate]
  rw [if_neg (by omega), Nat.sub_self]
  rfl

theorem replicate_append_cons {α : Type} (k : ℕ) (a : α) (x : List α) :
    List.replicate k a ++ a :: x = a :: (List.replicate k a ++ x) := by
  induction k with
  | zero => rfl
  | succ k ih => rw [List.replicate_succ, List.cons_append, ih]; rfl

theorem drop_one_repFalse (k : ℕ) (x : List Bool) :
    (List.replicate k false ++ false :: x).drop 1 = List.replicate k false ++ x := by
  rw [replicate_append_cons, List.drop_one, List.tail_cons]

theorem getD_repFalse (k : ℕ) (y : List Bool) :
    (List.replicate k false ++ false :: y).getD (k + 1) false = y.getD 0 false := by
  rw [List.getD_append_right _ _ _ _ (by rw [List.length_replicate]; omega)]
  rw [List.length_replicate]
  rw [show k + 1 - k = 1 by omega, List.getD_cons_succ]

theorem set_succ_repFalse (k : ℕ) (z : List Bool) :
    ((List.replicate k false ++ false :: z).set (k + 1) true)
      = List.replicate k false ++ false :: (z.set 0 true) := by
  rw [List.set_append, List.length_replicate, if_neg (by omega)]
  rw [show k + 1 - k = 1 by omega, List.set_cons_succ]

/-- Enumeration ends on a vector whose set bits form a suffix block (or are
absent): `next` returns `none` exactly on `false^k ++ true^m`. -/
theorem next_block_end (k m : ℕ) :
    next (List.replicate k false ++ List.replicate m true) = none := by
  induction m generalizing k with
  | zero =>
    rw [next]
    rw [show (List.replicate 0 true : List Bool) = [] from rfl, List.append_nil]
    rw [findIdx?_repFalse k 0]
  | succ m ih =>
    rw [next]
    rw [show List.replicate (m + 1) true = true :: List.replicate m true from rfl]
    rw [findIdx?_repFalse_true k (List.replicate m true) 0]
    rw [Nat.zero_add]
    simp only [List.length_append, List.length_cons, List.length_replicate]
    rcases Nat.eq_zero_or_pos m with hm | hm
    · subst hm
      rw [if_pos (by simp)]
    · rw [if_neg (by omega)]
      rw [set_repFalse_true k (List.replicate m true), getD_repFalse]
      obtain ⟨m', rfl⟩ : ∃ m', m = m' + 1 := ⟨m - 1, by omega⟩
      rw [show List.replicate (m' + 1) true = true :: List.replicate m' true from rfl]
      rw [show ((true :: List.replicate m' true).getD 0 false) = true from rfl]
      rw [if_neg (by simp)]
      rw [drop_one_repFalse]
      rw [show (true :: List.replicate m' true : List Bool)
        = List.replicate (m' + 1) true from rfl]
      rw [ih k]

/-- The increment step on a vector `false^k ++ true^(m+1) ++ false :: t`:
the top bit of the low block moves up one position and the rest of the
block drops to the bottom (the colexicographic successor). -/
theorem next_block_step (m : ℕ) : ∀ (k : ℕ) (t : List Bool),
    next (List.replicate k false ++ List.replicate (m + 1) true ++ false :: t)
      = some (List.replicate m true ++ List.replicate (k + 1) false ++ true :: t) := by
  induction m with
  | zero =>
    intro k t
    have harg : List.replicate k false ++ List.replicate 1 true ++ false :: t
        = List.replicate k false ++ true :: false :: t := by
      rw [List.append_assoc]; rfl
    rw [harg, next, findIdx?_repFalse_true k (false :: t) 0, Nat.zero_add]
    simp only [List.length_append, List.length_cons, List.length_replicate]
    rw [if_neg (by omega)]
    rw [set_repFalse_true k (false :: t), getD_repFalse]
    rw [show ((false :: t).getD 0 false) = false from rfl]
    rw [if_pos rfl, set_succ_repFalse]
    rw [show ((false :: t).set 0 true) = true :: t from rfl]
    rw [replicate_append_cons]
    rfl
  | succ m ih =>
    intro k t
    have harg : List.replicate k false ++ List.replicate (m + 1 + 1) true ++ false :: t
        = List.replicate k false ++ true :: (List.replicate (m + 1) true ++ false :: t) := by
      rw [List.append_assoc]; rfl
    rw [harg, next, findIdx?_repFalse_true k _ 0, Nat.zero_add]
    simp only [List.length_append, List.length_cons, List.length_replicate]
    rw [if_neg (by omega)]
    rw [set_repFalse_true k _, getD_repFalse]
    rw [show ((List.replicate (m + 1) true ++ false :: t).getD 0 false) = true from rfl]
    rw [if_neg (by simp)]
    rw [drop_one_repFalse, ← List.append_assoc, ih k t]
    rfl

theorem colexList_empty (n sz : ℕ) (h : n < sz) : colexList n sz = [] := by
  induction n generalizing sz with
  | zero =>
    obtain ⟨sz', rfl⟩ : ∃ sz', sz = sz' + 1 := ⟨sz - 1, by omega⟩
    rfl
  | succ n ih =>
    obtain ⟨sz', rfl⟩ : ∃ sz', sz = sz' + 1 := ⟨sz - 1, by omega⟩
    rw [colexList, ih (sz' + 1) (by omega), ih sz' (by omega)]
    rfl

theorem length_colexList_le (n sz : ℕ) : (colexList n sz).length ≤ 2 ^ n := by
  induction n generalizing sz with
  | zero =>
    cases sz with
    | zero => rw [colexList]; exact le_refl _
    | succ sz => rw [colexList]; simp
  | succ n ih =>
    cases sz with
    | zero => rw [colexList]; simp [Nat.one_le_two_pow]
    | succ sz =>
      rw [colexList, List.length_append, List.length_map, List.length_map, pow_succ]
      have := ih (sz + 1)
      have := ih sz
      omega

theorem mem_colexList (n : ℕ) : ∀ (sz : ℕ) (bv : List Bool),
    bv ∈ colexList n sz ↔ bv.length = n ∧ bv.count true = sz := by
  induction n with
  | zero =>
    intro sz bv
    cases sz with
    | zero =>
      rw [colexList]
      simp only [List.replicate_zero, List.mem_singleton]
      constructor
      · rintro rfl; exact ⟨rfl, rfl⟩
      · rintro ⟨h1, -⟩; exact List.eq_nil_of_length_eq_zero h1
    | succ sz =>
      rw [colexList]
      simp only [List.not_mem_nil, false_iff]
      rintro ⟨h1, h2⟩
      rw [List.eq_nil_of_length_eq_zero h1] at h2
      simp at h2
  | succ n ih =>
    intro sz bv
    cases sz with
    | zero =>
      rw [colexList]
      simp only [List.mem_singleton]
      constructor
      · rintro rfl
        refine ⟨List.length_replicate _ _, ?_⟩
        simp [List.count_replicate]
      · rintro ⟨h1, h2⟩
        have : ∀ b ∈ bv, b = false := by
          intro b hb
          cases b
          · rfl
          · exact absurd (List.count_eq_zero.mp h2 hb) (fun h => h)
        exact List.eq_replicate.mpr ⟨h1, this⟩
    | succ sz =>
      rw [colexList]
      rw [List.mem_append, List.mem_map, List.mem_map]
      constructor
      · rintro (⟨x, hx, rfl⟩ | ⟨x, hx, rfl⟩)
        · obtain ⟨hl, hc⟩ := (ih (sz + 1) x).mp hx
          refine ⟨by simp [hl], ?_⟩
          rw [List.count_append, hc]
          rfl
        · obtain ⟨hl, hc⟩ := (ih sz x).mp hx
          refine ⟨by simp [hl], ?_⟩
          rw [List.count_append, hc]
          rfl
      · rintro ⟨h1, h2⟩
        rcases List.eq_nil_or_concat bv with rfl | ⟨y, b, rfl⟩
        · simp at h1
        · rw [List.concat_eq_append] at h1 h2 ⊢
          rw [List.length_append] at h1
          simp only [List.length_cons, List.length_nil] at h1
          rw [List.count_append] at h2
          cases b
          · left
            refine ⟨y, (ih (sz + 1) y).mpr ⟨by omega, ?_⟩, rfl⟩
            have : List.count true [false] = 0 := rfl
            omega
          · right
            refine ⟨y, (ih sz y).mpr ⟨by omega, ?_⟩, rfl⟩
            have : List.count true [true] = 1 := rfl
            omega

theorem nodup_colexList (n : ℕ) : ∀ sz : ℕ, (colexList n sz).Nodup := by
  induction n with
  | zero =>
    intro sz
    cases sz with
    | zero => exact List.nodup_singleton _
    | succ sz => exact List.nodup_nil
  | succ n ih =>
    intro sz
    cases sz with
    | zero => exact List.nodup_singleton _
    | succ sz =>
      rw [colexList]
      apply List.Nodup.append
      · exact (ih (sz + 1)).map (fun x y h => List.append_cancel_right h)
      · exact (ih sz).map (fun x y h => List.append_cancel_right h)
      · intro x hx hy
        obtain ⟨x1, -, rfl⟩ := List.mem_map.mp hx
        obtain ⟨x2, -, hx2⟩ := List.mem_map.mp hy
        have h1 := congrArg List.getLast? hx2
        rw [List.getLast?_concat, List.getLast?_concat] at h1
        exact Bool.noConfusion (Option.some.inj h1)

/-- The colex list of size-`sz` subsets of `n` positions starts at the
enumerator's initial vector `true^sz ++ false^(n-sz)`. -/
theorem head_colexList (n : ℕ) : ∀ sz : ℕ, sz ≤ n → ∃ rest,
    colexList n sz = (List.replicate sz true ++ List.replicate (n - sz) false) :: rest := by
  induction n with
  | zero =>
    intro sz h
    obtain rfl : sz = 0 := by omega
    exact ⟨[], rfl⟩
  | succ n ih =>
    intro sz h
    cases sz with
    | zero => exact ⟨[], rfl⟩
    | succ sz =>
      rw [colexList]
      rcases Nat.lt_or_ge n (sz + 1) with hlt | hle
      · rw [colexList_empty n (sz + 1) (by omega)]
        obtain ⟨rest, hrest⟩ := ih sz (by omega)
        rw [hrest]
        refine ⟨(rest.map (· ++ [true])), ?_⟩
        rw [List.map_nil, List.nil_append, List.map_cons]
        rw [show n - sz = 0 by omega, show n + 1 - (sz + 1) = 0 by omega]
        rw [List.replicate_zero, List.append_nil, List.append_nil]
        rw [← List.replicate_succ']
      · obtain ⟨rest, hrest⟩ := ih (sz + 1) hle
        rw [hrest, List.map_cons]
        refine ⟨rest.map (· ++ [false]) ++ (colexList n sz).map (· ++ [true]), ?_⟩
        rw [List.cons_append]
        congr 1
        rw [List.append_assoc, ← List.replicate_succ']
        congr 2
        omega

/-- The colex list ends at `false^(n-sz) ++ true^sz`, on which `next`
reports exhaustion. -/
theorem last_colexList (n : ℕ) : ∀ sz : ℕ, sz ≤ n → ∃ front,
    colexList n sz = front ++ [List.replicate (n - sz) false ++ List.replicate sz true] := by
  induction n with
  | zero =>
    intro sz h
    obtain rfl : sz = 0 := by omega
    exact ⟨[], rfl⟩
  | succ n ih =>
    intro sz h
    cases sz with
    | zero =>
      refine ⟨[], ?_⟩
      rw [colexList]
      rw [Nat.sub_zero, List.replicate_zero, List.append_nil]
      rfl
    | succ sz =>
      rw [colexList]
      obtain ⟨front, hfront⟩ := ih sz (by omega)
      rw [hfront]
      refine ⟨(colexList n (sz + 1)).map (· ++ [false]) ++ front.map (· ++ [true]), ?_⟩
      rw [List.map_append, List.map_singleton]
      conv_rhs => rw [List.append_assoc]
      congr 1
      congr 1
      congr 1
      rw [List.append_assoc, ← List.replicate_succ']
      rw [show n + 1 - (sz + 1) = n - sz by omega]

/-- Every bit vector is either `false^k ++ true^m` (where `next` reports
exhaustion) or `false^k ++ true^(m+1) ++ false :: t` (where `next`
produces the colexicographic successor). -/
theorem bits_decomp (bv : List Bool) :
    (∃ k m, bv = List.replicate k false ++ List.replicate m true) ∨
    (∃ k m t, bv = List.replicate k false ++ List.replicate (m + 1) true ++ false :: t) := by
  induction bv with
  | nil => exact Or.inl ⟨0, 0, rfl⟩
  | cons b bv ih =>
    cases b
    · rcases ih with ⟨k, m, rfl⟩ | ⟨k, m, t, rfl⟩
      · exact Or.inl ⟨k + 1, m, rfl⟩
      · exact Or.inr ⟨k + 1, m, t, rfl⟩
    · rcases ih with ⟨k, m, rfl⟩ | ⟨k, m, t, rfl⟩
      · cases k with
        | zero => exact Or.inl ⟨0, m + 1, rfl⟩
        | succ k => exact Or.inr ⟨0, 0, List.replicate k false ++ List.replicate m true, rfl⟩
      · cases k with
        | zero => exact Or.inr ⟨0, m + 1, t, rfl⟩
        | succ k =>
          exact Or.inr ⟨0, 0,
            List.replicate k false ++ List.replicate (m + 1) true ++ false :: t, rfl⟩

/-- Appending a fixed top bit commutes with the increment step. -/
theorem next_snoc (bv r : List Bool) (c : Bool) (h : next bv = some r) :
    next (bv ++ [c]) = some (r ++ [c]) := by
  rcases bits_decomp bv with ⟨k, m, rfl⟩ | ⟨k, m, t, rfl⟩
  · rw [next_block_end] at h
    exact Option.noConfusion h
  · rw [next_block_step] at h
    obtain rfl := (Option.some.inj h).symm
    rw [show (List.replicate k false ++ List.replicate (m + 1) true ++ false :: t) ++ [c]
        = List.replicate k false ++ List.replicate (m + 1) true ++ false :: (t ++ [c]) by
      rw [List.append_assoc]; rfl]
    rw [next_block_step]
    rw [show (List.replicate m true ++ List.replicate (k + 1) false ++ true :: t) ++ [c]
        = List.replicate m true ++ List.replicate (k + 1) false ++ true :: (t ++ [c]) by
      rw [List.append_assoc]; rfl]

theorem chain_colexList (n : ℕ) : ∀ sz : ℕ,
    List.Chain' (fun a b => next a = some b) (colexList n sz) := by
  induction n with
  | zero =>
    intro sz
    cases sz with
    | zero => exact List.chain'_singleton _
    | succ sz => exact List.chain'_nil
  | succ n ih =>
    intro sz
    cases sz with
    | zero => exact List.chain'_singleton _
    | succ sz =>
      rw [colexList, List.chain'_append]
      refine ⟨?_, ?_, ?_⟩
      · rw [List.chain'_map]
        exact List.Chain'.imp (fun a b hab => next_snoc a b false hab) (ih (sz + 1))
      · rw [List.chain'_map]
        exact List.Chain'.imp (fun a b hab => next_snoc a b true hab) (ih sz)
      · intro x hx y hy
        by_cases hc : n < sz + 1
        · rw [colexList_empty n (sz + 1) hc] at hx
          simp at hx
        · push_neg at hc
          obtain ⟨front, hfront⟩ := last_colexList n (sz + 1) hc
          obtain ⟨rest, hrest⟩ := head_colexList n sz (by omega)
          rw [hfront, List.map_append, List.map_singleton, List.getLast?_concat] at hx
          rw [hrest, List.map_cons, List.head?_cons] at hy
          obtain rfl := Option.mem_unique hx (Option.mem_def.mpr rfl)
          obtain rfl := Option.mem_unique hy (Option.mem_def.mpr rfl)
          rw [show (List.replicate (n - (sz + 1)) false ++ List.replicate (sz + 1) true) ++ [false]
              = List.replicate (n - (sz + 1)) false ++ List.replicate (sz + 1) true
                ++ false :: ([] : List Bool) by rw [List.append_assoc]]
          rw [next_block_step]
          rw [show n - (sz + 1) + 1 = n - sz by omega]

theorem enumFrom_spec : ∀ (l : List (List Bool)) (bv : List Bool) (fuel : ℕ),
    List.Chain' (fun a b => next a = some b) (bv :: l) →
    (∀ z ∈ (bv :: l).getLast?, next z = none) →
    l.length < fuel →
    enumFrom fuel bv = bv :: l := by
  intro l
  induction l with
  | nil =>
    intro bv fuel hchain hlast hfuel
    obtain ⟨f, rfl⟩ : ∃ f, fuel = f + 1 := ⟨fuel - 1, by omega⟩
    rw [enumFrom]
    have h1 : next bv = none := hlast bv (by rw [List.getLast?_singleton]; rfl)
    rw [h1]
  | cons b l ih =>
    intro bv fuel hchain hlast hfuel
    obtain ⟨f, rfl⟩ : ∃ f, fuel = f + 1 := ⟨fuel - 1, by omega⟩
    rw [enumFrom]
    have h1 : next bv = some b := (List.chain'_cons.mp hchain).1
    rw [h1]
    have h2 := ih b f (List.chain'_cons.mp hchain).2
      (by intro z hz; exact hlast z (by rwa [List.getLast?_cons_cons])) (by
        simp only [List.length_cons] at hfuel ⊢
        omega)
    show bv :: enumFrom f b = bv :: b :: l
    rw [h2]

theorem initBits_all (n : ℕ) : ∀ sz : ℕ, n ≤ sz → initBits n sz = List.replicate n true := by
  induction n with
  | zero => intro sz h; rfl
  | succ n ih =>
    intro sz h
    rw [initBits, List.range_succ, List.map_append, List.map_singleton]
    have hih : List.map (fun i => decide (i < sz)) (List.range n) = List.replicate n true :=
      ih sz (by omega)
    rw [hih, show decide (n < sz) = true by simp; omega, List.replicate_succ']

theorem initBits_eq (n : ℕ) : ∀ sz : ℕ, sz ≤ n →
    initBits n sz = List.replicate sz true ++ List.replicate (n - sz) false := by
  induction n with
  | zero =>
    intro sz h
    obtain rfl : sz = 0 := by omega
    rfl
  | succ n ih =>
    intro sz h
    rcases Nat.lt_or_ge n sz with hlt | hle
    · obtain rfl : sz = n + 1 := by omega
      rw [initBits_all (n + 1) (n + 1) (le_refl _), Nat.sub_self]
      rw [List.replicate_zero, List.append_nil]
    · rw [initBits, List.range_succ, List.map_append, List.map_singleton]
      have hih : List.map (fun i => decide (i < sz)) (List.range n)
          = List.replicate sz true ++ List.replicate (n - sz) false := ih sz hle
      rw [hih, show decide (n < sz) = false by simp; omega]
      rw [List.append_assoc, ← List.replicate_succ']
      rw [show n - sz + 1 = n + 1 - sz by omega]

/-- The enumerator visits exactly the colexicographic list. -/
theorem enumMasks_eq_colexList (n sz : ℕ) (h : sz ≤ n) :
    enumMasks n sz = colexList n sz := by
  obtain ⟨rest, hrest⟩ := head_colexList n sz h
  rw [enumMasks, initBits_eq n sz h, hrest]
  apply enumFrom_spec
  · rw [← hrest]
    exact chain_colexList n sz
  · intro z hz
    obtain ⟨front, hfront⟩ := last_colexList n sz h
    rw [← hrest, hfront, List.getLast?_concat] at hz
    obtain rfl := Option.mem_unique hz (Option.mem_def.mpr rfl)
    exact next_block_end _ _
  · have hlen := length_colexList_le n sz
    rw [hrest, List.length_cons] at hlen
    omega

theorem maskedPhenos_sublist : ∀ (ps : List String) (bv : List Bool),
    (maskedPhenos ps bv).Sublist ps := by
  intro ps
  induction ps with
  | nil => intro bv; cases bv <;> exact List.nil_sublist _
  | cons p ps ih =>
    intro bv
    cases bv with
    | nil => exact List.nil_sublist _
    | cons b bv =>
      rw [maskedPhenos]
      split
      · exact List.Sublist.cons₂ p (ih bv)
      · exact List.Sublist.cons p (ih bv)

theorem maskedPhenos_length : ∀ (ps : List String) (bv : List Bool),
    bv.length = ps.length → (maskedPhenos ps bv).length = bv.count true := by
  intro ps
  induction ps with
  | nil =>
    intro bv h
    rw [List.length_nil] at h
    rw [List.eq_nil_of_length_eq_zero h]
    rfl
  | cons p ps ih =>
    intro bv h
    cases bv with
    | nil => simp at h
    | cons b bv =>
      rw [maskedPhenos]
      simp only [List.length_cons] at h
      cases b
      · rw [if_neg (by simp)]
        rw [ih bv (by omega)]
        rw [List.count_cons]
        simp
      · rw [if_pos rfl, List.length_cons, ih bv (by omega), List.count_cons]
        simp

theorem maskedPhenos_injective : ∀ (ps : List String), ps.Nodup →
    ∀ (bv1 bv2 : List Bool), bv1.length = ps.length → bv2.length = ps.length →
    maskedPhenos ps bv1 = maskedPhenos ps bv2 → bv1 = bv2 := by
  intro ps
  induction ps with
  | nil =>
    intro _ bv1 bv2 h1 h2 _
    rw [List.length_nil] at h1 h2
    rw [List.eq_nil_of_length_eq_zero h1, List.eq_nil_of_length_eq_zero h2]
  | cons p ps ih =>
    intro hnd bv1 bv2 h1 h2 heq
    cases bv1 with
    | nil => simp at h1
    | cons b1 bv1 =>
      cases bv2 with
      | nil => simp at h2
      | cons b2 bv2 =>
        simp only [List.length_cons] at h1 h2
        rw [List.nodup_cons] at hnd
        rw [maskedPhenos, maskedPhenos] at heq
        have hsub1 := maskedPhenos_sublist ps bv1
        have hsub2 := maskedPhenos_sublist ps bv2
        cases b1 <;> cases b2
        · rw [if_neg (by simp), if_neg (by simp)] at heq
          rw [ih hnd.2 bv1 bv2 (by omega) (by omega) heq]
        · rw [if_neg (by simp), if_pos rfl] at heq
          exact absurd (heq ▸ List.mem_cons_self p _ : p ∈ maskedPhenos ps bv1)
            (fun hmem => hnd.1 (hsub1.subset hmem))
        · rw [if_pos rfl, if_neg (by simp)] at heq
          exact absurd (heq ▸ List.mem_cons_self p _ : p ∈ maskedPhenos ps bv2)
            (fun hmem => hnd.1 (hsub2.subset hmem))
        · rw [if_pos rfl, if_pos rfl] at heq
          have := List.cons.injEq p (maskedPhenos ps bv1) p (maskedPhenos ps bv2) ▸ heq
          rw [ih hnd.2 bv1 bv2 (by omega) (by omega) (List.cons.inj heq).2]

/-- Two sublists of a duplicate-free list with the same element set are
equal. -/
theorem sublist_eq_of_toFinset_eq : ∀ (ps l1 l2 : List String), ps.Nodup →
    l1.Sublist ps → l2.Sublist ps → l1.toFinset = l2.toFinset → l1 = l2 := by
  intro ps
  induction ps with
  | nil =>
    intro l1 l2 _ h1 h2 _
    rw [List.sublist_nil.mp h1, List.sublist_nil.mp h2]
  | cons p ps ih =>
    intro l1 l2 hnd h1 h2 hset
    rw [List.nodup_cons] at hnd
    rcases List.sublist_cons_iff.mp h1 with hs1 | ⟨r1, rfl, hr1⟩
    · rcases List.sublist_cons_iff.mp h2 with hs2 | ⟨r2, rfl, hr2⟩
      · exact ih l1 l2 hnd.2 hs1 hs2 hset
      · exfalso
        have hp2 : p ∈ l1.toFinset := by
          rw [hset]
          simp
        rw [List.mem_toFinset] at hp2
        exact hnd.1 (hs1.subset hp2)
    · rcases List.sublist_cons_iff.mp h2 with hs2 | ⟨r2, rfl, hr2⟩
      · exfalso
        have hp1 : p ∈ l2.toFinset := by
          rw [← hset]
          simp
        rw [List.mem_toFinset] at hp1
        exact hnd.1 (hs2.subset hp1)
      · have hr1p : p ∉ r1.toFinset := by
          rw [List.mem_toFinset]
          exact fun hmem => hnd.1 (hr1.subset hmem)
        have hr2p : p ∉ r2.toFinset := by
          rw [List.mem_toFinset]
          exact fun hmem => hnd.1 (hr2.subset hmem)
        have : r1.toFinset = r2.toFinset := by
          rw [List.toFinset_cons, List.toFinset_cons] at hset
          rw [← Finset.erase_insert hr1p, ← Finset.erase_insert hr2p, hset]
        rw [ih r1 r2 hnd.2 hr1 hr2 this]

theorem maskedPhenos_theMask : ∀ (ps : List String) (S : Finset String),
    maskedPhenos ps (theMask ps S) = ps.filter (fun p => decide (p ∈ S)) := by
  intro ps S
  induction ps with
  | nil => rfl
  | cons p ps ih =>
    rw [theMask, List.map_cons, maskedPhenos, List.filter_cons]
    by_cases hp : p ∈ S
    · rw [if_pos (by simp [hp]), if_pos (by simp [hp])]
      rw [show maskedPhenos ps (List.map (fun p => decide (p ∈ S)) ps)
        = maskedPhenos ps (theMask ps S) from rfl, ih]
    · rw [if_neg (by simp [hp]), if_neg (by simp [hp])]
      rw [show maskedPhenos ps (List.map (fun p => decide (p ∈ S)) ps)
        = maskedPhenos ps (theMask ps S) from rfl, ih]

theorem theMask_length (ps : List String) (S : Finset String) :
    (theMask ps S).length = ps.length := List.length_map ps _

theorem theMask_count (ps : List String) (S : Finset String) (hnd : ps.Nodup)
    (hS : S ⊆ ps.toFinset) : (theMask ps S).count true = S.card := by
  induction ps generalizing S with
  | nil =>
    have : S = ∅ := Finset.subset_empty.mp (by simpa using hS)
    rw [this]
    rfl
  | cons p ps ih =>
    rw [List.nodup_cons] at hnd
    rw [theMask, List.map_cons, List.count_cons]
    by_cases hp : p ∈ S
    · have hmask : List.map (fun q => decide (q ∈ S)) ps
          = List.map (fun q => decide (q ∈ S.erase p)) ps := by
        apply List.map_congr_left
        intro q hq
        have hqp : q ≠ p := fun h => hnd.1 (h ▸ hq)
        simp [Finset.mem_erase, hqp]
      rw [hmask]
      have hsub : S.erase p ⊆ ps.toFinset := by
        intro q hq
        rw [Finset.mem_erase] at hq
        have := hS hq.2
        rw [List.toFinset_cons, Finset.mem_insert] at this
        rcases this with h | h
        · exact absurd h hq.1
        · exact h
      rw [show List.map (fun q => decide (q ∈ S.erase p)) ps = theMask ps (S.erase p) from rfl]
      rw [ih (S.erase p) hnd.2 hsub]
      rw [if_pos (by simp [hp]), Finset.card_erase_of_mem hp]
      have : 1 ≤ S.card := Finset.card_pos.mpr ⟨p, hp⟩
      omega
    · have hsub : S ⊆ ps.toFinset := by
        intro q hq
        have := hS hq
        rw [List.toFinset_cons, Finset.mem_insert] at this
        rcases this with h | h
        · exact absurd (h ▸ hq) hp
        · exact h
      rw [show List.map (fun q => decide (q ∈ S)) ps = theMask ps S from rfl]
      rw [ih S hnd.2 hsub, if_neg (by simp [hp])]
      omega

theorem filter_mem_toFinset (ps : List String) (S : Finset String)
    (hS : S ⊆ ps.toFinset) :
    (ps.filter (fun p => decide (p ∈ S))).toFinset = S := by
  ext q
  rw [List.mem_toFinset, List.mem_filter]
  constructor
  · rintro ⟨-, hq⟩
    exact of_decide_eq_true hq
  · intro hq
    exact ⟨List.mem_toFinset.mp (hS hq), by simp [hq]⟩

theorem countP_eq_one_of_unique {α : Type} (l : List α) (a : α) (p : α → Bool)
    (hnd : l.Nodup) (ha : a ∈ l) (hp : ∀ x ∈ l, p x = true ↔ x = a) :
    l.countP p = 1 := by
  induction l with
  | nil => simp at ha
  | cons b l ih =>
    rw [List.countP_cons]
    rw [List.nodup_cons] at hnd
    obtain ⟨hb, hndl⟩ := hnd
    rcases List.mem_cons.mp ha with rfl | ha'
    · rw [if_pos ((hp a (List.mem_cons_self a l)).mpr rfl)]
      have h0 : l.countP p = 0 := by
        rw [List.countP_eq_zero]
        intro x hx hpx
        exact hb (((hp x (List.mem_cons_of_mem a hx)).mp hpx) ▸ hx)
      omega
    · have hpb : ¬(p b = true) := fun hpb =>
        hb (((hp b (List.mem_cons_self b l)).mp hpb) ▸ ha')
      rw [if_neg hpb, Nat.add_zero]
      exact ih hndl ha' (fun x hx => hp x (List.mem_cons_of_mem b hx))

/-- One size block of the enumeration contains exactly one subset list per
size-`sz` subset of the phenotype set, and nothing else. -/
theorem block_count (ps : List String) (hnd : ps.Nodup) (sz : ℕ)
    (hsz : sz ≤ ps.length) (S : Finset String) :
    ((enumMasks ps.length sz).map (maskedPhenos ps)).countP
        (fun l => decide (l.toFinset = S))
    = if S ⊆ ps.toFinset ∧ S.card = sz then 1 else 0 := by
  rw [enumMasks_eq_colexList _ _ hsz, List.countP_map]
  split
  · rename_i hpos
    obtain ⟨hsub, hcard⟩ := hpos
    apply countP_eq_one_of_unique _ (theMask ps S) _ (nodup_colexList _ _)
    · rw [mem_colexList]
      exact ⟨theMask_length ps S, by rw [theMask_count ps S hnd hsub, hcard]⟩
    · intro bv hbv
      obtain ⟨hlen, -⟩ := (mem_colexList _ _ _).mp hbv
      simp only [Function.comp_apply, decide_eq_true_eq]
      constructor
      · intro hset
        have h1 : maskedPhenos ps bv = maskedPhenos ps (theMask ps S) := by
          apply sublist_eq_of_toFinset_eq ps _ _ hnd
            (maskedPhenos_sublist ps bv) (maskedPhenos_sublist ps (theMask ps S))
          rw [hset, maskedPhenos_theMask, filter_mem_toFinset ps S hsub]
        exact maskedPhenos_injective ps hnd bv (theMask ps S)
          (by rw [hlen]) (theMask_length ps S) h1
      · rintro rfl
        rw [maskedPhenos_theMask, filter_mem_toFinset ps S hsub]
  · rename_i hneg
    rw [List.countP_eq_zero]
    intro bv hbv hset
    simp only [Function.comp_apply, decide_eq_true_eq] at hset
    obtain ⟨hlen, hcount⟩ := (mem_colexList _ _ _).mp hbv
    apply hneg
    constructor
    · rw [← hset]
      intro q hq
      rw [List.mem_toFinset] at hq ⊢
      exact (maskedPhenos_sublist ps bv).subset hq
    · rw [← hset]
      rw [List.toFinset_card_of_nodup
        ((maskedPhenos_sublist ps bv).nodup hnd)]
      rw [maskedPhenos_length ps bv (by rw [hlen]), hcount]

theorem sum_ite_count (l : List ℕ) (a : ℕ) (hnd : l.Nodup) :
    (l.map (fun sz => if a = sz then 1 else 0)).sum = if a ∈ l then 1 else 0 := by
  induction l with
  | nil => rfl
  | cons b l ih =>
    rw [List.nodup_cons] at hnd
    rw [List.map_cons, List.sum_cons, ih hnd.2]
    by_cases hab : a = b
    · subst hab
      rw [if_pos rfl, if_neg hnd.1, if_pos (List.mem_cons_self a l)]
    · rw [if_neg hab]
      by_cases hal : a ∈ l
      · rw [if_pos hal, if_pos (List.mem_cons_of_mem b hal)]
      · rw [if_neg hal, if_neg (by
          intro h
          rcases List.mem_cons.mp h with h | h
          · exact hab h
          · exact hal h)]

theorem cappedSize_le (n s : ℕ) : cappedSize n s ≤ n := by
  rw [cappedSize]
  split <;> omega

/-- The enumeration of `PhenotypeTestsUpToSize` produces each phenotype
subset of size `1 .. min(maxSubsetSize, #phenotypes - 1)` exactly once,
and nothing else. -/
theorem phenotypeSubsets_count (ps : List String) (hnd : ps.Nodup) (size : ℕ)
    (S : Finset String) :
    (phenotypeSubsets ps size).countP (fun l => decide (l.toFinset = S))
    = if S ⊆ ps.toFinset ∧ 1 ≤ S.card ∧ S.card ≤ cappedSize ps.length size
      then 1 else 0 := by
  rw [phenotypeSubsets, List.countP_bind]
  have hblocks :
      List.map (List.countP (fun l => decide (l.toFinset = S)) ∘
          fun sz => (enumMasks ps.length sz).map (maskedPhenos ps))
        (List.range' 1 (cappedSize ps.length size))
      = List.map (fun sz => if S ⊆ ps.toFinset ∧ S.card = sz then 1 else 0)
        (List.range' 1 (cappedSize ps.length size)) := by
    apply List.map_congr_left
    intro sz hsz
    obtain ⟨i, hi, rfl⟩ := List.mem_range'.mp hsz
    have h1 : 1 + 1 * i ≤ ps.length := by
      have := cappedSize_le ps.length size
      omega
    exact block_count ps hnd _ h1 S
  rw [hblocks]
  by_cases hQ : S ⊆ ps.toFinset
  · have hmap : List.map (fun sz => if S ⊆ ps.toFinset ∧ S.card = sz then 1 else 0)
        (List.range' 1 (cappedSize ps.length size))
        = List.map (fun sz => if S.card = sz then 1 else 0)
          (List.range' 1 (cappedSize ps.length size)) := by
      apply List.map_congr_left
      intro sz _
      rw [if_congr (and_iff_right hQ) rfl rfl]
    rw [hmap, sum_ite_count _ _ (List.nodup_range' _ _)]
    by_cases hmem : S.card ∈ List.range' 1 (cappedSize ps.length size)
    · obtain ⟨i, hi, hcard⟩ := List.mem_range'.mp hmem
      rw [if_pos hmem, if_pos ⟨hQ, by omega, by omega⟩]
    · rw [if_neg hmem, if_neg (by
        rintro ⟨-, h1, h2⟩
        exact hmem (List.mem_range'.mpr ⟨S.card - 1, by omega, by omega⟩))]
  · rw [if_neg (by rintro ⟨h, -⟩; exact hQ h)]
    apply List.sum_eq_zero
    intro x hx
    obtain ⟨sz, -, rfl⟩ := List.mem_map.mp hx
    rw [if_neg (by rintro ⟨h, -⟩; exact hQ h)]

/-- C5 (amended): `PhenotypeTest`'s strategy returns the Inapplicable
sentinel (the zero distribution, with cost 0) iff the `uint64` sum of the
surviving weights wraps to zero modulo `2 ^ 64` — in particular whenever no
genotype of nonzero weight has an allowed phenotype, and always for an
empty allowed set, but also when survivors exist and their weight sum is a
positive multiple of `2 ^ 64`.  When the wrapped surviving sum is nonzero
it returns the input with disallowed entries zeroed and reduced, at cost
(wrapped sum of original weights) / (wrapped sum of surviving weights). -/
theorem claim_C5 (s : Species) (phenotypes : List String) (gd : GeneticDistribution) :
    ((((PhenotypeTest s phenotypes).test gd).1 = zeroDist) ↔
      (∑ g : Fin 81, if s g ∈ phenotypes then gd g else 0) % M = 0) ∧
    ((¬∃ g, gd g ≠ 0 ∧ s g ∈ phenotypes) →
      (PhenotypeTest s phenotypes).test gd = (zeroDist, 0)) ∧
    ((∑ g : Fin 81, if s g ∈ phenotypes then gd g else 0) % M ≠ 0 →
      (PhenotypeTest s phenotypes).test gd
        = (reduce (maskDist s phenotypes gd),
           ((((∑ g : Fin 81, gd g) % M : ℕ)) : ℚ)
             / ((((∑ g : Fin 81, if s g ∈ phenotypes then gd g else 0) % M : ℕ)) : ℚ))) ∧
    (phenotypes = [] → (PhenotypeTest s phenotypes).test gd = (zeroDist, 0)) := by
  have hS := succChances_def s phenotypes gd
  have hT := totalChances_def gd
  have happ : (PhenotypeTest s phenotypes).test gd
      = if succChances s phenotypes gd = 0 then (zeroDist, (0 : ℚ))
        else (reduce (maskDist s phenotypes gd),
          (totalChances gd : ℚ) / (succChances s phenotypes gd : ℚ)) := by
    show phenotypeTestFn s phenotypes gd = _
    rw [phenotypeTestFn]
  by_cases hz : succChances s phenotypes gd = 0
  · refine ⟨?_, ?_, ?_, ?_⟩
    · rw [happ, if_pos hz]
      exact ⟨fun _ => hS ▸ hz, fun _ => rfl⟩
    · intro _
      rw [happ, if_pos hz]
    · intro hne
      rw [← hS] at hne
      exact absurd hz hne
    · intro _
      rw [happ, if_pos hz]
  · have hex : ∃ g, gd g ≠ 0 ∧ s g ∈ phenotypes :=
      exists_survivor_of_succChances_ne_zero s phenotypes gd hz
    refine ⟨?_, ?_, ?_, ?_⟩
    · rw [happ, if_neg hz]
      exact iff_of_false
        (reduce_ne_zero _ (maskDist_ne_zero s phenotypes gd hex))
        (by rw [← hS]; exact hz)
    · intro hno
      exact absurd hex hno
    · intro _
      rw [happ, if_neg hz, hS, hT]
    · rintro rfl
      obtain ⟨g, -, hmem⟩ := hex
      simp at hmem

/-- Counterexample to C5 as stated: every genotype of `c5S` is allowed and
`c5gd` has nonzero weights 1 and `2 ^ 64 - 1`, so genotypes of nonzero
weight with allowed phenotypes exist; yet the surviving `uint64` sum wraps
to 0 and the test returns the Inapplicable sentinel, refuting the claimed
"Inapplicable iff no genotype of nonzero weight is allowed". -/
theorem claim_C5_counterexample :
    (∃ g : Fin 81, c5gd g ≠ 0 ∧ c5S g ∈ ["A"]) ∧
    (PhenotypeTest c5S ["A"]).test c5gd = (zeroDist, 0) := by
  constructor
  · exact ⟨⟨0, by omega⟩, by decide, by decide⟩
  · show phenotypeTestFn c5S ["A"] c5gd = (zeroDist, 0)
    rw [phenotypeTestFn, if_pos (by rw [succChances]; decide)]

/-- Witness for C5 at a concrete applicable input: the wrapped surviving
sum is 1 ≠ 0, so the result is not the sentinel. -/
theorem claim_C5_witness :
    ¬(((PhenotypeTest (fun _ : Fin 81 => "X") ["X"]).test
        (fun i : Fin 81 => if i.val = 0 then 1 else 0)).1 = zeroDist) := by
  intro hz
  have h := (claim_C5 (fun _ : Fin 81 => "X") ["X"]
      (fun i : Fin 81 => if i.val = 0 then 1 else 0)).1.mp hz
  revert h
  decide

/-- C6 (amended): for every species and `maxSubsetSize ≥ 1`, the
enumeration generates exactly one `PhenotypeTest` per non-empty subset of
the species' phenotype set of each size from 1 through
`min(maxSubsetSize, #phenotypes - 1)` inclusive — the code caps the size
at `#phenotypes - 1`, so the full phenotype set itself is never
generated. -/
theorem claim_C6 (s : Species) (size : ℕ) (hsize : 1 ≤ size) (S : Finset String) :
    (PhenotypeTestsUpToSize s size).length
      = (phenotypeSubsets (Phenotypes s) size).length ∧
    (phenotypeSubsets (Phenotypes s) size).countP (fun l => decide (l.toFinset = S))
      = if S ⊆ (Phenotypes s).toFinset ∧ 1 ≤ S.card ∧
          S.card ≤ cappedSize (Phenotypes s).length size then 1 else 0 := by
  constructor
  · exact List.length_map _ _
  · exact phenotypeSubsets_count (Phenotypes s) (List.nodup_dedup _) size S

/-- Witness for C6 at the Cosmos species, `maxSubsetSize = 2` and the
subset `{White, Yellow}`. -/
theorem claim_C6_witness :
    (1 ≤ 2) ∧
    (phenotypeSubsets (Phenotypes cosmos) 2).countP
        (fun l => decide (l.toFinset = ({"White", "Yellow"} : Finset String)))
      = if ({"White", "Yellow"} : Finset String) ⊆ (Phenotypes cosmos).toFinset ∧
          1 ≤ ({"White", "Yellow"} : Finset String).card ∧
          ({"White", "Yellow"} : Finset String).card
            ≤ cappedSize (Phenotypes cosmos).length 2 then 1 else 0 :=
  ⟨by omega, (claim_C6 cosmos 2 (by omega) {"White", "Yellow"}).2⟩

/-- Counterexample to C6 as stated: for the Cosmos species (7 distinct
phenotype strings in its table) and `maxSubsetSize = 7`, the claim demands
exactly one test for the full phenotype set (size 7 = min(7, 7)), but the
enumeration generates none: the cap is `#phenotypes - 1 = 6`. -/
theorem claim_C6_counterexample :
    (Phenotypes cosmos).length = 7 ∧
    (Phenotypes cosmos).toFinset.card = 7 ∧
    (phenotypeSubsets (Phenotypes cosmos) 7).countP
        (fun l => decide (l.toFinset = (Phenotypes cosmos).toFinset)) = 0 := by
  refine ⟨by decide, by decide, ?_⟩
  rw [phenotypeSubsets_count (Phenotypes cosmos) (List.nodup_dedup _) 7
    (Phenotypes cosmos).toFinset]
  rw [if_neg]
  rintro ⟨-, -, hle⟩
  rw [show (Phenotypes cosmos).toFinset.card = 7 by decide] at hle
  rw [show cappedSize (Phenotypes cosmos).length 7 = 6 by decide] at hle
  omega

theorem count_flatMap2 {α β : Type} [BEq β] (l : List α) (f : α → List β) (b : β) :
    (l.flatMap f).count b = (l.map (fun a => (f a).count b)).sum := by
  induction l with
  | nil => rfl
  | cons x l ih =>
    rw [List.flatMap_cons, List.count_append, ih, List.map_cons, List.sum_cons]

theorem count_range'_one (j : ℕ) : ∀ n f : ℕ,
    (List.range' f n).count j = if f ≤ j ∧ j < f + n then 1 else 0
  | 0, f => by
    rw [List.range'_zero, List.count_nil, if_neg (by omega)]
  | n + 1, f => by
    rw [List.range'_succ, List.count_cons, count_range'_one j n (f + 1)]
    simp only [beq_iff_eq]
    split_ifs <;> omega

theorem count_map_pair_aux (i j : ℕ) : ∀ l : List ℕ,
    (l.map (fun j' => (i, j'))).count (i, j) = l.count j
  | [] => rfl
  | x :: l => by
    rw [List.map_cons, List.count_cons, List.count_cons, count_map_pair_aux i j l]
    by_cases h : x = j
    · subst h
      rw [if_pos (by simp), if_pos (by simp)]
    · rw [if_neg (by simp [h]), if_neg (by simp [h])]

theorem count_map_pair (i i' j a n : ℕ) :
    ((List.range' a n).map (fun j' => (i', j'))).count (i, j)
      = if i' = i then (List.range' a n).count j else 0 := by
  by_cases h : i' = i
  · subst h
    rw [if_pos rfl]
    exact count_map_pair_aux i' j (List.range' a n)
  · rw [if_neg h]
    refine List.count_eq_zero.mpr ?_
    intro hmem
    obtain ⟨j', _, hj'⟩ := List.mem_map.mp hmem
    exact h (congrArg Prod.fst hj')

theorem sum_if_range {M : Type} [AddCommMonoid M] (i : ℕ) (w : M) : ∀ N : ℕ,
    ((List.range N).map (fun i' => if i' = i then w else 0)).sum
      = if i < N then w else 0
  | 0 => by rw [List.range_zero, List.map_nil, List.sum_nil, if_neg (by omega)]
  | N + 1 => by
    rw [List.range_succ, List.map_append, List.sum_append, sum_if_range i w N]
    simp only [List.map_cons, List.map_nil, List.sum_cons, List.sum_nil, add_zero]
    by_cases h : N = i
    · subst h
      rw [if_neg (by omega), if_pos rfl, if_pos (by omega), zero_add]
    · rw [if_neg h, add_zero]
      by_cases h2 : i < N
      · rw [if_pos h2, if_pos (by omega)]
      · rw [if_neg h2, if_neg (by omega)]

theorem pairsList_count (f N i j : ℕ) (hij : i ≤ j) :
    (pairsList f N).count (i, j) = if f ≤ j ∧ j < N then 1 else 0 := by
  rw [pairsList, count_flatMap2]
  have h1 : ∀ i' : ℕ,
      (((List.range' (max f i') (N - max f i')).map (fun j' => (i', j'))).count (i, j))
        = if i' = i then (if f ≤ j ∧ j < N then 1 else 0) else 0 := by
    intro i'
    rw [count_map_pair]
    by_cases h : i' = i
    · subst h
      rw [count_range'_one]
      have he : (max f i' ≤ j ∧ j < max f i' + (N - max f i')) ↔ (f ≤ j ∧ j < N) := by
        omega
      rw [if_congr he rfl rfl]
    · rw [if_neg h, if_neg h]
  rw [List.map_congr_left (fun i' _ => h1 i'), sum_if_range]
  split_ifs <;> omega

theorem mem_pairedIn (s : GState) (i j : ℕ) :
    (i, j) ∈ pairedIn s ↔
      i < s.verts.length ∧ max s.vertFrontier i ≤ j ∧ j < s.verts.length := by
  rw [pairedIn, pairsList, List.mem_flatMap]
  constructor
  · rintro ⟨i', hi', hmem⟩
    obtain ⟨j', hj', hj⟩ := List.mem_map.mp hmem
    obtain ⟨rfl, rfl⟩ : i' = i ∧ j' = j := by
      constructor <;> [exact (congrArg Prod.fst hj); exact (congrArg Prod.snd hj)]
    rw [List.mem_range'_1] at hj'
    rw [List.mem_range] at hi'
    omega
  · rintro ⟨hi, hj1, hj2⟩
    refine ⟨i, List.mem_range.mpr hi, List.mem_map.mpr ⟨j, ?_, rfl⟩⟩
    rw [List.mem_range'_1]
    omega

theorem processCandidate_frame (keep : GeneticDistribution → Bool) (s : GState) (c : Cand)
    (s' : GState) (h : processCandidate keep s c = some s') :
    s.verts.length ≤ s'.verts.length ∧ s'.tests = s.tests ∧
      s'.vertFrontier = s.vertFrontier := by
  rw [processCandidate] at h
  rcases hf : s.verts.findIdx? (fun v => decide (v.gd = c.gd)) with _ | vi <;> rw [hf] at h
  · split_ifs at h
    · obtain rfl := Option.some.inj h
      refine ⟨?_, rfl, rfl⟩
      rw [List.length_append]
      omega
    · obtain rfl := Option.some.inj h
      exact ⟨le_refl _, rfl, rfl⟩
  · dsimp only at h
    split_ifs at h
    · obtain rfl := Option.some.inj h
      rw [List.length_set]
      exact ⟨le_refl _, rfl, rfl⟩
    · rcases hp : (s.verts.getD vi default).pred with _ | pe <;> rw [hp] at h <;>
        dsimp only at h
      · exact absurd h (by simp)
      · split_ifs at h <;> obtain rfl := Option.some.inj h
        · rw [List.length_set]
          exact ⟨le_refl _, rfl, rfl⟩
        · exact ⟨le_refl _, rfl, rfl⟩
    · obtain rfl := Option.some.inj h
      exact ⟨le_refl _, rfl, rfl⟩

theorem processList_frame (keep : GeneticDistribution → Bool) :
    ∀ (cs : List Cand) (s s' : GState), processList keep s cs = some s' →
    s.verts.length ≤ s'.verts.length ∧ s'.tests = s.tests ∧
      s'.vertFrontier = s.vertFrontier
  | [], s, s', h => by
    obtain rfl := Option.some.inj h
    exact ⟨le_refl _, rfl, rfl⟩
  | c :: cs, s, s', h => by
    rw [processList] at h
    rcases hc : processCandidate keep s c with _ | s2 <;> rw [hc] at h
    · exact absurd h (by simp)
    · obtain ⟨h1, h2, h3⟩ := processCandidate_frame keep s c s2 hc
      obtain ⟨h4, h5, h6⟩ := processList_frame keep cs s2 s' h
      exact ⟨le_trans h1 h4, h5.trans h2, h6.trans h3⟩

theorem expandSched_frame (keep : GeneticDistribution → Bool) (s : GState)
    (o : List ℕ) (s' : GState) (h : expandSched keep s o = some s') :
    s'.vertFrontier = s.verts.length ∧ s.verts.length ≤ s'.verts.length ∧
      s'.tests = s.tests := by
  rw [expandSched] at h
  rcases hp : processList keep s (o.flatMap (iBatch s s.verts.length)) with _ | s2 <;>
    rw [hp] at h
  · exact absurd h (by simp)
  · obtain rfl := Option.some.inj h
    obtain ⟨h1, h2, _⟩ := processList_frame keep _ s s2 hp
    exact ⟨rfl, h1, h2⟩

theorem trace_count (i j : ℕ) (hij : i ≤ j) :
    ∀ (steps : List ((GeneticDistribution → Bool) × List ℕ)) (s : GState)
      (states : List GState), runTrace steps s = some states →
      s.vertFrontier ≤ s.verts.length →
      ((states.flatMap pairedIn).count (i, j))
        = if s.vertFrontier ≤ j ∧ ∃ t ∈ states, j < t.verts.length then 1 else 0
  | [], s, states, h, _ => by
    obtain rfl : ([] : List GState) = states := Option.some.inj h
    rw [if_neg (by simp)]
    rfl
  | (keep, o) :: rest, s, states, h, hfl => by
    rw [runTrace] at h
    rcases he : expandSched keep s o with _ | s2 <;> rw [he] at h <;> dsimp only at h
    · exact absurd h (by simp)
    · rcases ht : runTrace rest s2 with _ | sts <;> rw [ht] at h <;> dsimp only at h
      · exact absurd h (by simp)
      · obtain rfl := Option.some.inj h
        obtain ⟨hf2, hl2, _⟩ := expandSched_frame keep s o s2 he
        have ih := trace_count i j hij rest s2 sts ht (by omega)
        rw [List.flatMap_cons, List.count_append, ih, hf2]
        rw [pairedIn, pairsList_count _ _ _ _ hij]
        have hmem : (∃ t ∈ s :: sts, j < t.verts.length) ↔
            (j < s.verts.length ∨ ∃ t ∈ sts, j < t.verts.length) := by
          constructor
          · rintro ⟨t, ht', hj⟩
            rcases List.mem_cons.mp ht' with rfl | hm
            · exact Or.inl hj
            · exact Or.inr ⟨t, hm, hj⟩
          · rintro (hj | ⟨t, hm, hj⟩)
            · exact ⟨s, List.mem_cons_self _ _, hj⟩
            · exact ⟨t, List.mem_cons_of_mem _ hm, hj⟩
        rw [if_congr (Iff.and Iff.rfl hmem) rfl rfl]
        by_cases hex : ∃ t ∈ sts, j < t.verts.length
        · simp only [hex, and_true, or_true]
          split_ifs <;> omega
        · simp only [hex, and_false, or_false, if_false]
          split_ifs <;> omega

/-- C2: over any run (any sequence of `Expand` calls on a fresh graph),
every pair `(i, j)` with `i ≤ j` of vertex indices that both exist at the
start of some call is cross-bred exactly once; each call pairs `i ∈ [0,N)`
with `j ∈ [max(frontier, i), N)` where `N` is the call-start vertex count,
and the frontier advances to `N` when the call completes. -/
theorem claim_C2 (tests : List Test) (seeds : List GeneticDistribution)
    (steps : List ((GeneticDistribution → Bool) × List ℕ)) (states : List GState)
    (h : runTrace steps (NewGraph tests seeds) = some states) (i j : ℕ) (hij : i ≤ j) :
    ((states.flatMap pairedIn).count (i, j)
        = if ∃ t ∈ states, j < t.verts.length then 1 else 0) ∧
    (∀ (t : GState) (a b : ℕ), (a, b) ∈ pairedIn t ↔
        a < t.verts.length ∧ max t.vertFrontier a ≤ b ∧ b < t.verts.length) ∧
    (∀ (keep : GeneticDistribution → Bool) (u : GState) (o : List ℕ) (u2 : GState),
        expandSched keep u o = some u2 → u2.vertFrontier = u.verts.length) := by
  refine ⟨?_, fun t a b => mem_pairedIn t a b,
    fun keep u o u2 hu => (expandSched_frame keep u o u2 hu).1⟩
  have ht := trace_count i j hij steps (NewGraph tests seeds) states h (by simp [NewGraph])
  rw [ht]
  exact if_congr (by simp [NewGraph]) rfl rfl

theorem claim_C2_witness :
    (([NewGraph [cTest] cSeeds, cState1].flatMap pairedIn).count (0, 1)
        = if ∃ t ∈ [NewGraph [cTest] cSeeds, cState1], 1 < t.verts.length then 1 else 0) ∧
    (∀ (t : GState) (a b : ℕ), (a, b) ∈ pairedIn t ↔
        a < t.verts.length ∧ max t.vertFrontier a ≤ b ∧ b < t.verts.length) ∧
    (∀ (keep : GeneticDistribution → Bool) (u : GState) (o : List ℕ) (u2 : GState),
        expandSched keep u o = some u2 → u2.vertFrontier = u.verts.length) :=
  claim_C2 [cTest] cSeeds cSteps [NewGraph [cTest] cSeeds, cState1] rfl 0 1 (by omega)

/-- C3: when a candidate's resulting distribution already has a vertex,
the best-predecessor edge is replaced iff the candidate's path cost is
strictly lower, or the costs are equal and the candidate's test has
strictly smaller priority than the current predecessor's test.  The
`Nodup` hypothesis records that vertex distributions are pairwise
distinct, so the first matching index is exactly the `vertMap` entry. -/
theorem claim_C3 (keep : GeneticDistribution → Bool) (s : GState) (c : Cand) (vi : ℕ)
    (_hnd : (s.verts.map VertexData.gd).Nodup)
    (hfind : s.verts.findIdx? (fun v => v.gd = c.gd) = some vi) :
    ((edgePathCost s c.e < vertexPathCost s vi ∨
        (edgePathCost s c.e = vertexPathCost s vi ∧
          ∃ pe, (s.verts.getD vi default).pred = some pe ∧
            (s.tests.getD c.e.testIdx NoTest).priority
              < (s.tests.getD pe.testIdx NoTest).priority)) →
      processCandidate keep s c =
        some ⟨s.tests,
          s.verts.set vi ⟨(s.verts.getD vi default).gd, some c.e⟩, s.vertFrontier⟩) ∧
    ((vertexPathCost s vi < edgePathCost s c.e ∨
        (edgePathCost s c.e = vertexPathCost s vi ∧
          ∃ pe, (s.verts.getD vi default).pred = some pe ∧
            ¬ (s.tests.getD c.e.testIdx NoTest).priority
              < (s.tests.getD pe.testIdx NoTest).priority)) →
      processCandidate keep s c = some s) := by
  constructor
  · rintro (hlt | ⟨heq, pe, hpe, hprio⟩)
    · rw [processCandidate, hfind]
      dsimp only
      rw [if_pos hlt]
    · rw [processCandidate, hfind]
      dsimp only
      rw [if_neg (by rw [heq]; exact lt_irrefl _), if_pos heq, hpe]
      dsimp only
      rw [if_pos hprio]
  · rintro (hgt | ⟨heq, pe, hpe, hprio⟩)
    · rw [processCandidate, hfind]
      dsimp only
      rw [if_neg (by exact not_lt_of_gt hgt), if_neg (by exact ne_of_gt hgt)]
    · rw [processCandidate, hfind]
      dsimp only
      rw [if_neg (by rw [heq]; exact lt_irrefl _), if_pos heq, hpe]
      dsimp only
      rw [if_neg hprio]

theorem claim_C3_witness :
    ((edgePathCost c3S c3C.e < vertexPathCost c3S 1 ∨
        (edgePathCost c3S c3C.e = vertexPathCost c3S 1 ∧
          ∃ pe, (c3S.verts.getD 1 default).pred = some pe ∧
            (c3S.tests.getD c3C.e.testIdx NoTest).priority
              < (c3S.tests.getD pe.testIdx NoTest).priority)) →
      processCandidate (fun _ => true) c3S c3C =
        some ⟨c3S.tests,
          c3S.verts.set 1 ⟨(c3S.verts.getD 1 default).gd, some c3C.e⟩, c3S.vertFrontier⟩) ∧
    ((vertexPathCost c3S 1 < edgePathCost c3S c3C.e ∨
        (edgePathCost c3S c3C.e = vertexPathCost c3S 1 ∧
          ∃ pe, (c3S.verts.getD 1 default).pred = some pe ∧
            ¬ (c3S.tests.getD c3C.e.testIdx NoTest).priority
              < (c3S.tests.getD pe.testIdx NoTest).priority)) →
      processCandidate (fun _ => true) c3S c3C = some c3S) :=
  claim_C3 (fun _ => true) c3S c3C 1 (by decide) (by decide)

theorem getD_append_low (l : List VertexData) (a d : VertexData) (i : ℕ)
    (h : i < l.length) : (l ++ [a]).getD i d = l.getD i d := by
  rw [List.getD_eq_getElem?_getD, List.getD_eq_getElem?_getD,
    List.getElem?_append_left h]

theorem getD_append_high (l : List VertexData) (a d : VertexData) (i : ℕ)
    (h : l.length ≤ i) : (l ++ [a]).getD i d = if i = l.length then a else d := by
  rw [List.getD_eq_getElem?_getD, List.getElem?_append_right h]
  by_cases he : i = l.length
  · subst he
    simp
  · rw [if_neg he]
    have : i - l.length ≥ 1 := by omega
    rcases hk : i - l.length with _ | k
    · omega
    · simp

theorem getD_set_self (l : List VertexData) (a d : VertexData) (i : ℕ)
    (h : i < l.length) : (l.set i a).getD i d = a := by
  rw [List.getD_eq_getElem?_getD, List.getElem?_set_self (by omega)]
  rfl

theorem getD_set_ne (l : List VertexData) (a d : VertexData) (i j : ℕ)
    (h : i ≠ j) : (l.set i a).getD j d = l.getD j d := by
  rw [List.getD_eq_getElem?_getD, List.getD_eq_getElem?_getD,
    List.getElem?_set_ne h]

theorem edge_provenance (s : GState) :
    ∀ (fuel : ℕ) (stk : List PItem) (handled : Finset PItem) (e : EdgeData),
      PItem.edg e ∈ visitRun s fuel stk handled →
      PItem.edg e ∈ stk ∨ ∃ i, (s.verts.getD i default).pred = some e
  | 0, stk, handled, e, h => absurd h (by rw [visitRun]; simp)
  | fuel + 1, stk, handled, e, h => by
    rw [visitRun.eq_def] at h
    rcases stk with _ | ⟨x, stk⟩
    · exact absurd h (by simp)
    · dsimp only at h
      split_ifs at h with hmem
      · rcases edge_provenance s fuel stk handled e h with hs | hi
        · exact Or.inl (List.mem_cons_of_mem _ hs)
        · exact Or.inr hi
      · rcases List.mem_cons.mp h with he | h2
        · exact Or.inl (he ▸ List.mem_cons_self _ _)
        · rcases edge_provenance s fuel _ _ e h2 with hs | hi
          · rcases List.mem_append.mp hs with hsucc | hstk
            · rcases x with i | e'
              · rw [itemSuccs] at hsucc
                rcases hp : (s.verts.getD i default).pred with _ | pe <;>
                  rw [hp] at hsucc
                · exact absurd hsucc (by simp)
                · dsimp only at hsucc
                  have hpe := PItem.edg.inj (List.mem_singleton.mp hsucc)
                  exact Or.inr ⟨i, by rw [hp, hpe]⟩
              · rw [itemSuccs] at hsucc
                simp at hsucc
            · exact Or.inl (List.mem_cons_of_mem _ hstk)
          · exact Or.inr hi

theorem visitRun_head (s : GState) (fuel : ℕ) (x : PItem) :
    visitRun s (fuel + 1) [x] ∅
      = x :: visitRun s fuel (itemSuccs s x ++ []) (insert x ∅) := by
  rw [visitRun.eq_def]
  dsimp only
  rw [if_neg (Finset.not_mem_empty x)]

theorem visitFuel_pos (s : GState) (stk : List PItem) : 1 ≤ visitFuel s stk := by
  rw [visitFuel]; omega

theorem edgePathCost_ge_one (s : GState) (e : EdgeData)
    (hinv : CostInv s) (hc : 1 ≤ e.cost) : 1 ≤ edgePathCost s e := by
  rw [edgePathCost]
  have hf : visitFuel s [PItem.edg e] = (visitFuel s [PItem.edg e] - 1) + 1 := by
    have := visitFuel_pos s [PItem.edg e]
    omega
  rw [hf, visitRun_head]
  rw [List.map_cons, List.sum_cons]
  have hrest : 0 ≤ (List.map itemCost
      (visitRun s (visitFuel s [PItem.edg e] - 1)
        (itemSuccs s (PItem.edg e) ++ []) (insert (PItem.edg e) ∅))).sum := by
    apply List.sum_nonneg
    intro q hq
    obtain ⟨p, hp, rfl⟩ := List.mem_map.mp hq
    rcases p with i | e'
    · rw [itemCost]
    · rw [itemCost]
      rcases edge_provenance s _ _ _ e' hp with hs | ⟨i, hi⟩
      · rw [itemSuccs] at hs
        simp at hs
      · exact le_trans (by norm_num) (hinv i e' hi)
  have hec : itemCost (PItem.edg e) = e.cost := rfl
  rw [hec]
  linarith

theorem vertexPathCost_seed (s : GState) (i : ℕ)
    (h : (s.verts.getD i default).pred = none) : vertexPathCost s i = 0 := by
  rw [vertexPathCost, h]

theorem processCandidate_safety (keep : GeneticDistribution → Bool) (s : GState)
    (c : Cand) (hinv : CostInv s) (hc : 1 ≤ c.e.cost) :
    ∃ s', processCandidate keep s c = some s' ∧ CostInv s' ∧
      s.verts.length ≤ s'.verts.length ∧
      ∀ i < s.verts.length, (s.verts.getD i default).pred = none →
        (s'.verts.getD i default).pred = none := by
  have hnew := edgePathCost_ge_one s c.e hinv hc
  rw [processCandidate]
  rcases hf : s.verts.findIdx? (fun v => v.gd = c.gd) with _ | vi
  · rw [hf]
    dsimp only
    split_ifs with hk
    · refine ⟨_, rfl, ?_, ?_, ?_⟩
      · intro i e hp
        rcases lt_trichotomy i s.verts.length with hi | hi | hi
        · rw [getD_append_low _ _ _ _ hi] at hp
          exact hinv i e hp
        · rw [getD_append_high _ _ _ _ (le_of_eq hi.symm), if_pos hi] at hp
          dsimp only at hp
          obtain rfl := Option.some.inj hp
          exact hc
        · rw [getD_append_high _ _ _ _ (by omega), if_neg (by omega)] at hp
          exact absurd hp (by simp [default])
      · rw [List.length_append]
        omega
      · intro i hi hp
        rw [getD_append_low _ _ _ _ hi]
        exact hp
    · exact ⟨s, rfl, hinv, le_refl _, fun i _ hp => hp⟩
  · have hvi : vi < s.verts.length := by
      have := List.findIdx?_eq_some_iff_findIdx_eq.mp hf
      omega
    rw [hf]
    dsimp only
    by_cases hlt : edgePathCost s c.e < vertexPathCost s vi
    · rw [if_pos hlt]
      have hpred : (s.verts.getD vi default).pred ≠ none := by
        intro hp
        rw [vertexPathCost_seed s vi hp] at hlt
        linarith
      refine ⟨_, rfl, ?_, by rw [List.length_set], ?_⟩
      · intro i e hp
        by_cases hivi : vi = i
        · subst hivi
          rw [getD_set_self _ _ _ _ hvi] at hp
          obtain rfl := Option.some.inj hp
          exact hc
        · rw [getD_set_ne _ _ _ _ _ hivi] at hp
          exact hinv i e hp
      · intro i hi hp
        by_cases hivi : vi = i
        · subst hivi
          exact absurd hp hpred
        · rw [getD_set_ne _ _ _ _ _ hivi]
          exact hp
    · rw [if_neg hlt]
      by_cases heq : edgePathCost s c.e = vertexPathCost s vi
      · rw [if_pos heq]
        rcases hp : (s.verts.getD vi default).pred with _ | pe
        · rw [vertexPathCost_seed s vi hp] at heq
          linarith
        · dsimp only
          split_ifs with hprio
          · refine ⟨_, rfl, ?_, by rw [List.length_set], ?_⟩
            · intro i e hpi
              by_cases hivi : vi = i
              · subst hivi
                rw [getD_set_self _ _ _ _ hvi] at hpi
                obtain rfl := Option.some.inj hpi
                exact hc
              · rw [getD_set_ne _ _ _ _ _ hivi] at hpi
                exact hinv i e hpi
            · intro i hi hpi
              by_cases hivi : vi = i
              · subst hivi
                rw [hp] at hpi
                cases hpi
              · rw [getD_set_ne _ _ _ _ _ hivi]
                exact hpi
          · exact ⟨s, rfl, hinv, le_refl _, fun i _ hpi => hpi⟩
      · rw [if_neg heq]
        exact ⟨s, rfl, hinv, le_refl _, fun i _ hpi => hpi⟩

theorem processList_safety (keep : GeneticDistribution → Bool) :
    ∀ (cs : List Cand) (s : GState), CostInv s → (∀ c ∈ cs, 1 ≤ c.e.cost) →
    ∃ s', processList keep s cs = some s' ∧ CostInv s' ∧
      s.verts.length ≤ s'.verts.length ∧
      ∀ i < s.verts.length, (s.verts.getD i default).pred = none →
        (s'.verts.getD i default).pred = none
  | [], s, hinv, _ => ⟨s, rfl, hinv, le_refl _, fun i _ hp => hp⟩
  | c :: cs, s, hinv, hcs => by
    obtain ⟨s2, hs2, hinv2, hlen2, hseed2⟩ :=
      processCandidate_safety keep s c hinv (hcs c (List.mem_cons_self _ _))
    obtain ⟨s', hs', hinv', hlen', hseed'⟩ :=
      processList_safety keep cs s2 hinv2 (fun d hd => hcs d (List.mem_cons_of_mem _ hd))
    refine ⟨s', ?_, hinv', le_trans hlen2 hlen', ?_⟩
    · rw [processList, hs2]
      exact hs'
    · intro i hi hp
      exact hseed' i (by omega) (hseed2 i hi hp)

theorem iBatch_cost (s : GState) (N i : ℕ)
    (hco : ∀ t ∈ s.tests, CostOK t) :
    ∀ c ∈ iBatch s N i, 1 ≤ c.e.cost := by
  intro c hc
  rw [iBatch] at hc
  obtain ⟨j, _, hj⟩ := List.mem_flatMap.mp hc
  obtain ⟨t, ht, hres⟩ := List.mem_filterMap.mp hj
  rw [List.mem_range] at ht
  have hmem : s.tests.getD t NoTest ∈ s.tests := by
    rw [List.getD_eq_getElem _ _ ht]
    exact List.getElem_mem ht
  dsimp only at hres
  split_ifs at hres with hz
  obtain rfl := Option.some.inj hres
  exact hco _ hmem _ hz

theorem expandSched_safety (keep : GeneticDistribution → Bool) (s : GState)
    (o : List ℕ) (hinv : CostInv s) (hco : ∀ t ∈ s.tests, CostOK t) :
    ∃ s', expandSched keep s o = some s' ∧ CostInv s' ∧
      s.verts.length ≤ s'.verts.length ∧ s'.tests = s.tests ∧
      ∀ i < s.verts.length, (s.verts.getD i default).pred = none →
        (s'.verts.getD i default).pred = none := by
  have hcs : ∀ c ∈ o.flatMap (iBatch s s.verts.length), 1 ≤ c.e.cost := by
    intro c hc
    obtain ⟨i, _, hi⟩ := List.mem_flatMap.mp hc
    exact iBatch_cost s s.verts.length i hco c hi
  obtain ⟨s2, hs2, hinv2, hlen2, hseed2⟩ := processList_safety keep _ s hinv hcs
  refine ⟨⟨s2.tests, s2.verts, s.verts.length⟩, ?_, hinv2, hlen2,
    (processList_frame keep _ s s2 hs2).2.1, hseed2⟩
  rw [expandSched, hs2]

theorem runSteps_safety :
    ∀ (steps : List ((GeneticDistribution → Bool) × List ℕ)) (s : GState),
    CostInv s → (∀ t ∈ s.tests, CostOK t) →
    ∃ s', runSteps steps s = some s' ∧ CostInv s' ∧
      s.verts.length ≤ s'.verts.length ∧
      ∀ i < s.verts.length, (s.verts.getD i default).pred = none →
        (s'.verts.getD i default).pred = none
  | [], s, hinv, _ => ⟨s, rfl, hinv, le_refl _, fun i _ hp => hp⟩
  | (keep, o) :: rest, s, hinv, hco => by
    obtain ⟨s2, hs2, hinv2, hlen2, hts2, hseed2⟩ := expandSched_safety keep s o hinv hco
    obtain ⟨s', hs', hinv', hlen', hseed'⟩ := runSteps_safety rest s2 hinv2 (by
      intro t ht
      rw [hts2] at ht
      exact hco t ht)
    refine ⟨s', ?_, hinv', le_trans hlen2 hlen', ?_⟩
    · rw [runSteps, hs2]
      exact hs'
    · intro i hi hp
      exact hseed' i (by omega) (hseed2 i hi hp)

theorem NewGraph_seed (tests : List Test) (seeds : List GeneticDistribution) (i : ℕ) :
    ((NewGraph tests seeds).verts.getD i default).pred = none := by
  rw [NewGraph]
  dsimp only
  rcases hlt : (seeds.map (fun gd => (⟨gd, none⟩ : VertexData)))[i]? with _ | v
  · rw [List.getD_eq_getElem?_getD, hlt]
    rfl
  · rw [List.getD_eq_getElem?_getD, hlt]
    obtain ⟨hj, hv⟩ := List.getElem?_eq_some_iff.mp hlt
    rw [List.getElem_map] at hv
    simp [← hv]

/-- The exact (unwrapped) surviving sum never exceeds the exact total
sum; this transfers to the wrapped accumulators only when the total does
not wrap. -/
theorem succSum_le_totalSum (s : Species) (ps : List String)
    (gd : GeneticDistribution) :
    (∑ g : Fin 81, if s g ∈ ps then gd g else 0) ≤ ∑ g : Fin 81, gd g := by
  apply Finset.sum_le_sum
  intro g _
  split
  · exact le_refl _
  · exact Nat.zero_le _

theorem CostOK_NoTest : CostOK NoTest := fun _ _ => le_refl 1

/-- `PhenotypeTest` costs at least 1 when applicable — provided the total
weight sum stays below `2 ^ 64`, so neither `uint64` accumulator wraps.
Without that bound the claim fails (`claim_C9_counterexample`). -/
theorem CostOK_PhenotypeTest_of_no_wrap (s : Species) (ps : List String)
    (gd : GeneticDistribution) (hlt : (∑ g : Fin 81, gd g) < M) :
    ((PhenotypeTest s ps).test gd).1 ≠ zeroDist →
      1 ≤ ((PhenotypeTest s ps).test gd).2 := by
  intro hz
  show 1 ≤ (phenotypeTestFn s ps gd).2
  have hz' : (phenotypeTestFn s ps gd).1 ≠ zeroDist := hz
  rw [phenotypeTestFn] at hz' ⊢
  split_ifs at hz' ⊢ with h
  · exact absurd rfl hz'
  · show 1 ≤ (totalChances gd : ℚ) / (succChances s ps gd : ℚ)
    have hs := succSum_le_totalSum s ps gd
    have hsm : (∑ g : Fin 81, if s g ∈ ps then gd g else 0) < M :=
      lt_of_le_of_lt hs hlt
    rw [succChances_def, Nat.mod_eq_of_lt hsm] at h
    have hpos : 0 < ((∑ g : Fin 81, if s g ∈ ps then gd g else 0 : ℕ) : ℚ) := by
      exact_mod_cast Nat.pos_of_ne_zero h
    rw [succChances_def, totalChances_def, Nat.mod_eq_of_lt hsm,
      Nat.mod_eq_of_lt hlt, one_le_div hpos]
    exact_mod_cast hs

/-- C9 (amended): with every configured test costing at least 1 when
applicable, any sequence of `Expand` calls runs without hitting the
unguarded `v.pred.test` dereference of the tie branch (the run returns a
state rather than the panic sentinel), and every seed vertex keeps a nil
best-predecessor and path cost 0 throughout.  `NoTest` satisfies the cost
premise; `PhenotypeTest` satisfies it whenever the distribution's total
weight stays below `2 ^ 64`, but NOT in general — its wrapped `uint64`
`totalChances` can fall below `succChances` (`claim_C9_counterexample`). -/
theorem claim_C9 (tests : List Test) (seeds : List GeneticDistribution)
    (steps : List ((GeneticDistribution → Bool) × List ℕ))
    (hco : ∀ t ∈ tests, CostOK t) :
    (∃ sF, runSteps steps (NewGraph tests seeds) = some sF ∧
        ∀ i < seeds.length,
          (sF.verts.getD i default).pred = none ∧ vertexPathCost sF i = 0) ∧
    CostOK NoTest ∧
    (∀ (sp : Species) (ps : List String) (gd : GeneticDistribution),
      (∑ g : Fin 81, gd g) < M →
      ((PhenotypeTest sp ps).test gd).1 ≠ zeroDist →
      1 ≤ ((PhenotypeTest sp ps).test gd).2) := by
  refine ⟨?_, CostOK_NoTest, CostOK_PhenotypeTest_of_no_wrap⟩
  have hinv0 : CostInv (NewGraph tests seeds) := by
    intro i e hp
    rw [NewGraph_seed] at hp
    cases hp
  have hco' : ∀ t ∈ (NewGraph tests seeds).tests, CostOK t := fun t ht => hco t ht
  obtain ⟨sF, hsF, _, hlen, hseed⟩ := runSteps_safety steps _ hinv0 hco'
  refine ⟨sF, hsF, ?_⟩
  intro i hi
  have hlen0 : (NewGraph tests seeds).verts.length = seeds.length := by
    rw [NewGraph]
    exact List.length_map _ _
  have hp := hseed i (by rw [hlen0]; exact hi) (NewGraph_seed tests seeds i)
  exact ⟨hp, vertexPathCost_seed sF i hp⟩

set_option maxRecDepth 4096 in
/-- Counterexample to C9's parenthetical "as every PhenotypeTest does":
at `c9gd` the wrapped `totalChances` is 0 while `succChances` is 5, so the
test is applicable with cost 0 < 1 and `CostOK` fails. -/
theorem claim_C9_counterexample :
    ((PhenotypeTest c9S ["A"]).test c9gd).1 ≠ zeroDist ∧
    ((PhenotypeTest c9S ["A"]).test c9gd).2 = 0 ∧
    ¬ CostOK (PhenotypeTest c9S ["A"]) := by
  have hS : succChances c9S ["A"] c9gd = 5 := by
    rw [succChances]
    decide
  have hT : totalChances c9gd = 0 := by
    rw [totalChances]
    decide
  have happ : (PhenotypeTest c9S ["A"]).test c9gd
      = (reduce (maskDist c9S ["A"] c9gd),
         (totalChances c9gd : ℚ) / (succChances c9S ["A"] c9gd : ℚ)) := by
    show phenotypeTestFn c9S ["A"] c9gd = _
    rw [phenotypeTestFn, if_neg (by rw [hS]; omega)]
  have h1 : ((PhenotypeTest c9S ["A"]).test c9gd).1 ≠ zeroDist := by
    rw [happ]
    exact reduce_ne_zero _
      (maskDist_ne_zero c9S ["A"] c9gd ⟨⟨0, by omega⟩, by decide, by decide⟩)
  have h2 : ((PhenotypeTest c9S ["A"]).test c9gd).2 = 0 := by
    rw [happ]
    show (totalChances c9gd : ℚ) / (succChances c9S ["A"] c9gd : ℚ) = 0
    rw [hT]
    norm_num
  refine ⟨h1, h2, fun hcost => ?_⟩
  have := hcost c9gd h1
  rw [h2] at this
  norm_num at this

theorem claim_C9_witness :
    (∃ sF, runSteps cSteps (NewGraph [cTest] cSeeds) = some sF ∧
        ∀ i < cSeeds.length,
          (sF.verts.getD i default).pred = none ∧ vertexPathCost sF i = 0) ∧
    CostOK NoTest ∧
    (∀ (sp : Species) (ps : List String) (gd : GeneticDistribution),
      (∑ g : Fin 81, gd g) < M →
      ((PhenotypeTest sp ps).test gd).1 ≠ zeroDist →
      1 ≤ ((PhenotypeTest sp ps).test gd).2) :=
  claim_C9 [cTest] cSeeds cSteps (by
    intro t ht
    rw [List.mem_singleton] at ht
    subst ht
    intro gd _
    exact le_refl 1)

theorem map_gd_set_self (l : List VertexData) (vi : ℕ) (e : Option EdgeData)
    (hvi : vi < l.length) :
    (l.set vi ⟨(l.getD vi default).gd, e⟩).map VertexData.gd = l.map VertexData.gd := by
  apply List.ext_getElem?
  intro n
  rw [List.getElem?_map, List.getElem?_map, List.getElem?_set]
  by_cases h : vi = n
  · subst h
    rw [if_pos rfl, if_pos hvi]
    rw [List.getD_eq_getElem l default hvi, List.getElem?_eq_getElem hvi]
    rfl
  · rw [if_neg h]

theorem findIdx?_some_gd_mem (s : GState) (c : Cand) (vi : ℕ)
    (hf : s.verts.findIdx? (fun v => v.gd = c.gd) = some vi) :
    c.gd ∈ gdSet s := by
  have hvi : vi < s.verts.length := by
    have := List.findIdx?_eq_some_iff_findIdx_eq.mp hf
    omega
  have hp : (fun v => decide (v.gd = c.gd)) (s.verts.get ⟨vi, hvi⟩) = true := by
    have h2 := List.findIdx?_eq_some_iff_getElem.mp hf
    obtain ⟨_, hpred, _⟩ := h2
    exact hpred
  rw [gdSet, List.mem_toFinset]
  have : (s.verts.get ⟨vi, hvi⟩).gd = c.gd := by
    simpa using hp
  rw [← this]
  exact List.mem_map_of_mem _ (List.get_mem _ _ hvi)

theorem gdSet_processCandidate (keep : GeneticDistribution → Bool) (s : GState)
    (c : Cand) (s' : GState) (h : processCandidate keep s c = some s') :
    gdSet s' = gdSet s ∪ (if keep c.gd then {c.gd} else ∅) := by
  rw [processCandidate] at h
  rcases hf : s.verts.findIdx? (fun v => v.gd = c.gd) with _ | vi <;> rw [hf] at h <;>
    dsimp only at h
  · split_ifs at h with hk <;> obtain rfl := Option.some.inj h
    · rw [if_pos hk, gdSet, gdSet]
      dsimp only
      rw [List.map_append, List.map_cons, List.map_nil, List.toFinset_append]
      rfl
    · rw [if_neg hk, Finset.union_empty]
  · have hmem := findIdx?_some_gd_mem s c vi hf
    have habs : gdSet s ∪ (if keep c.gd then {c.gd} else ∅) = gdSet s := by
      split_ifs
      · rw [Finset.union_comm]
        exact Finset.union_eq_right.mpr (Finset.singleton_subset_iff.mpr hmem)
      · exact Finset.union_empty _
    rw [habs]
    have hvi : vi < s.verts.length := by
      have := List.findIdx?_eq_some_iff_findIdx_eq.mp hf
      omega
    have hset : gdSet ⟨s.tests,
        s.verts.set vi ⟨(s.verts.getD vi default).gd, some c.e⟩, s.vertFrontier⟩
        = gdSet s := by
      rw [gdSet, gdSet]
      dsimp only
      rw [map_gd_set_self _ _ _ hvi]
    split_ifs at h
    · obtain rfl := Option.some.inj h
      exact hset
    · rcases hp : (s.verts.getD vi default).pred with _ | pe <;> rw [hp] at h <;>
        dsimp only at h
      · cases h
      · split_ifs at h <;> obtain rfl := Option.some.inj h
        · exact hset
        · rfl
    · obtain rfl := Option.some.inj h
      rfl

theorem gdSet_processList (keep : GeneticDistribution → Bool) :
    ∀ (cs : List Cand) (s s' : GState), processList keep s cs = some s' →
    gdSet s' = gdSet s ∪ ((cs.filter (fun c => keep c.gd)).map Cand.gd).toFinset
  | [], s, s', h => by
    obtain rfl := Option.some.inj h
    rw [List.filter_nil, List.map_nil, List.toFinset_nil, Finset.union_empty]
  | c :: cs, s, s', h => by
    rw [processList] at h
    rcases hc : processCandidate keep s c with _ | s2 <;> rw [hc] at h <;> dsimp only at h
    · cases h
    · have h2 := gdSet_processList keep cs s2 s' h
      rw [h2, gdSet_processCandidate keep s c s2 hc]
      rw [List.filter_cons]
      by_cases hk : keep c.gd
      · rw [if_pos hk, if_pos hk, List.map_cons, List.toFinset_cons]
        rw [Finset.union_comm (gdSet s) {c.gd}, Finset.union_assoc]
        rw [Finset.insert_eq]
        rw [← Finset.union_assoc, Finset.union_comm {c.gd} (gdSet s), Finset.union_assoc]
      · rw [if_neg hk, if_neg hk, Finset.union_empty]

theorem gdSet_expandSched (keep : GeneticDistribution → Bool) (s : GState)
    (o : List ℕ) (s' : GState) (h : expandSched keep s o = some s') :
    gdSet s' = gdSet s ∪
      (((o.flatMap (iBatch s s.verts.length)).filter
        (fun c => keep c.gd)).map Cand.gd).toFinset := by
  rw [expandSched] at h
  rcases hp : processList keep s (o.flatMap (iBatch s s.verts.length)) with _ | s2 <;>
    rw [hp] at h <;> dsimp only at h
  · cases h
  · obtain rfl := Option.some.inj h
    rw [gdSet]
    dsimp only
    exact gdSet_processList keep _ s s2 hp

theorem gdSet_order_invariant (s : GState) (keep : GeneticDistribution → Bool)
    (o1 o2 : List ℕ) (hperm : o1.Perm o2) (s1 s2 : GState)
    (e1 : expandSched keep s o1 = some s1) (e2 : expandSched keep s o2 = some s2) :
    gdSet s1 = gdSet s2 := by
  rw [gdSet_expandSched keep s o1 s1 e1, gdSet_expandSched keep s o2 s2 e2]
  have hp2 : ((o1.flatMap (iBatch s s.verts.length)).filter (fun c => keep c.gd)).Perm
      ((o2.flatMap (iBatch s s.verts.length)).filter (fun c => keep c.gd)) :=
    (hperm.flatMap_right _).filter _
  rw [List.toFinset_eq_of_perm _ _ (hp2.map Cand.gd)]

/-- C1 (amended): the vertex distribution set produced by an `Expand`
call, its frontier, and its tests are identical across all valid batch
delivery orders — in particular across worker-pool sizes, since any two
valid orders are permutations of the index range.  (Best-predecessor
assignments and path costs are NOT order-independent when ties occur;
see the counterexample.) -/
theorem claim_C1 (s : GState) (keep : GeneticDistribution → Bool) (w1 w2 : ℕ)
    (o1 o2 : List ℕ) (s1 s2 : GState)
    (h1 : validOrder w1 s.verts.length o1) (h2 : validOrder w2 s.verts.length o2)
    (e1 : expandSched keep s o1 = some s1) (e2 : expandSched keep s o2 = some s2) :
    gdSet s1 = gdSet s2 ∧ s1.vertFrontier = s2.vertFrontier ∧ s1.tests = s2.tests := by
  have hperm : o1.Perm o2 := h1.1.trans h2.1.symm
  obtain ⟨f1, _, t1⟩ := expandSched_frame keep s o1 s1 e1
  obtain ⟨f2, _, t2⟩ := expandSched_frame keep s o2 s2 e2
  exact ⟨gdSet_order_invariant s keep o1 o2 hperm s1 s2 e1 e2, f1.trans f2.symm, t1.trans t2.symm⟩

theorem claim_C1_counterexample :
    validOrder 1 2 [0, 1] ∧ validOrder 2 2 [1, 0] ∧
    expandSched (fun _ => true) (NewGraph [cTest] cSeeds) [0, 1] = some cState1 ∧
    expandSched (fun _ => true) (NewGraph [cTest] cSeeds) [1, 0] = some cState1b ∧
    (cState1.verts.getD 2 default).gd = (cState1b.verts.getD 2 default).gd ∧
    (cState1.verts.getD 2 default).pred ≠ (cState1b.verts.getD 2 default).pred :=
  ⟨by decide, by decide, rfl, rfl, rfl, by decide⟩

theorem claim_C1_witness :
    gdSet cState1 = gdSet cState1b ∧
      cState1.vertFrontier = cState1b.vertFrontier ∧ cState1.tests = cState1b.tests :=
  claim_C1 (NewGraph [cTest] cSeeds) (fun _ => true) 1 2 [0, 1] [1, 0] cState1 cState1b
    (by decide) (by decide) rfl rfl

theorem itemSuccs_length_le (s : GState) (x : PItem) : (itemSuccs s x).length ≤ 2 := by
  rcases x with i | e
  · rw [itemSuccs]
    rcases hp : (s.verts.getD i default).pred with _ | e <;> simp
  · rw [itemSuccs]
    simp

theorem visitRun_correct (s : GState) (U : Finset PItem)
    (hU : ∀ x ∈ U, ∀ y ∈ itemSuccs s x, y ∈ U) :
    ∀ (fuel : ℕ) (stk : List PItem) (handled : Finset PItem),
      (∀ x ∈ stk, x ∈ U) → handled ⊆ U →
      3 * (U \ handled).card + stk.length ≤ fuel →
      (visitRun s fuel stk handled).Nodup ∧
      (∀ x ∈ visitRun s fuel stk handled, x ∉ handled) ∧
      (∀ a ∈ stk, a ∈ visitRun s fuel stk handled ∨ a ∈ handled) ∧
      (∀ x ∈ visitRun s fuel stk handled, ∀ y ∈ itemSuccs s x,
        y ∈ visitRun s fuel stk handled ∨ y ∈ handled) ∧
      (∀ x ∈ visitRun s fuel stk handled, ∃ a ∈ stk,
        Relation.ReflTransGen (fun p q => q ∈ itemSuccs s p) a x)
  | 0, stk, handled, hstk, hsub, hfuel => by
    have hstk0 : stk = [] := List.length_eq_zero.mp (by omega)
    subst hstk0
    rw [visitRun]
    refine ⟨List.nodup_nil, ?_, ?_, ?_, ?_⟩ <;> simp
  | fuel + 1, [], handled, hstk, hsub, hfuel => by
    rw [visitRun.eq_def]
    dsimp only
    refine ⟨List.nodup_nil, ?_, ?_, ?_, ?_⟩ <;> simp
  | fuel + 1, x :: stk, handled, hstk, hsub, hfuel => by
    by_cases hmem : x ∈ handled
    · have heq : visitRun s (fuel + 1) (x :: stk) handled = visitRun s fuel stk handled := by
        rw [visitRun.eq_def]
        dsimp only
        rw [if_pos hmem]
      obtain ⟨h1, h2, h3, h4, h5⟩ := visitRun_correct s U hU fuel stk handled
        (fun z hz => hstk z (List.mem_cons_of_mem _ hz)) hsub (by
          rw [List.length_cons] at hfuel
          omega)
      rw [heq]
      refine ⟨h1, h2, ?_, h4, ?_⟩
      · intro a ha
        rcases List.mem_cons.mp ha with rfl | ha2
        · exact Or.inr hmem
        · exact h3 a ha2
      · intro z hz
        obtain ⟨a, ha, hr⟩ := h5 z hz
        exact ⟨a, List.mem_cons_of_mem _ ha, hr⟩
    · have hxU : x ∈ U := hstk x (List.mem_cons_self _ _)
      have hx : x ∈ U \ handled := Finset.mem_sdiff.mpr ⟨hxU, hmem⟩
      have hcard : (U \ insert x handled).card + 1 = (U \ handled).card := by
        have herase : U \ insert x handled = (U \ handled).erase x := by
          ext z
          simp only [Finset.mem_sdiff, Finset.mem_erase, Finset.mem_insert]
          tauto
        rw [herase, Finset.card_erase_of_mem hx]
        have hpos : 1 ≤ (U \ handled).card := Finset.card_pos.mpr ⟨x, hx⟩
        omega
      have heq : visitRun s (fuel + 1) (x :: stk) handled
          = x :: visitRun s fuel (itemSuccs s x ++ stk) (insert x handled) := by
        rw [visitRun.eq_def]
        dsimp only
        rw [if_neg hmem]
      have hlen := itemSuccs_length_le s x
      obtain ⟨h1, h2, h3, h4, h5⟩ := visitRun_correct s U hU fuel
        (itemSuccs s x ++ stk) (insert x handled)
        (by
          intro z hz
          rcases List.mem_append.mp hz with hz1 | hz2
          · exact hU x hxU z hz1
          · exact hstk z (List.mem_cons_of_mem _ hz2))
        (Finset.insert_subset hxU hsub)
        (by
          rw [List.length_append]
          rw [List.length_cons] at hfuel
          omega)
      rw [heq]
      refine ⟨?_, ?_, ?_, ?_, ?_⟩
      · rw [List.nodup_cons]
        exact ⟨fun hx2 => (h2 x hx2) (Finset.mem_insert_self _ _), h1⟩
      · intro z hz
        rcases List.mem_cons.mp hz with rfl | hz2
        · exact hmem
        · exact fun hzh => (h2 z hz2) (Finset.mem_insert_of_mem hzh)
      · intro a ha
        rcases List.mem_cons.mp ha with rfl | ha2
        · exact Or.inl (List.mem_cons_self _ _)
        · rcases h3 a (List.mem_append_right _ ha2) with h | h
          · exact Or.inl (List.mem_cons_of_mem _ h)
          · rcases Finset.mem_insert.mp h with rfl | h
            · exact Or.inl (List.mem_cons_self _ _)
            · exact Or.inr h
      · intro z hz y hy
        rcases List.mem_cons.mp hz with rfl | hz2
        · rcases h3 y (List.mem_append_left _ hy) with h | h
          · exact Or.inl (List.mem_cons_of_mem _ h)
          · rcases Finset.mem_insert.mp h with rfl | h
            · exact Or.inl (List.mem_cons_self _ _)
            · exact Or.inr h
        · rcases h4 z hz2 y hy with h | h
          · exact Or.inl (List.mem_cons_of_mem _ h)
          · rcases Finset.mem_insert.mp h with rfl | h
            · exact Or.inl (List.mem_cons_self _ _)
            · exact Or.inr h
      · intro z hz
        rcases List.mem_cons.mp hz with rfl | hz2
        · exact ⟨z, List.mem_cons_self _ _, Relation.ReflTransGen.refl⟩
        · obtain ⟨a, ha, hr⟩ := h5 z hz2
          rcases List.mem_append.mp ha with ha1 | ha2
          · exact ⟨x, List.mem_cons_self _ _, Relation.ReflTransGen.head ha1 hr⟩
          · exact ⟨a, List.mem_cons_of_mem _ ha2, hr⟩

theorem getD_default_of_ge (l : List VertexData) (i : ℕ) (h : l.length ≤ i) :
    l.getD i default = default := by
  rw [List.getD_eq_getElem?_getD, List.getElem?_eq_none (by omega)]
  rfl

theorem graphU_closed (s : GState) (stk : List PItem) (hpred : PredOK s)
    (hstk : ∀ x ∈ stk, itemOK s x) :
    ∀ x ∈ graphU s stk, ∀ y ∈ itemSuccs s x, y ∈ graphU s stk := by
  intro x hxU y hy
  rcases x with i | e
  · rw [itemSuccs] at hy
    rcases hp : (s.verts.getD i default).pred with _ | e <;> rw [hp] at hy
    · exact absurd hy (by simp)
    · dsimp only at hy
      obtain rfl := List.mem_singleton.mp hy
      have hilen : i < s.verts.length := by
        by_contra hge
        rw [getD_default_of_ge s.verts i (by omega)] at hp
        cases hp
      rw [graphU]
      refine Finset.mem_union_right _ (Finset.mem_biUnion.mpr ⟨i, Finset.mem_range.mpr hilen, ?_⟩)
      rw [hp]
      exact Finset.mem_singleton_self _
  · have hpars : e.par1 < s.verts.length ∧ e.par2 < s.verts.length := by
      rw [graphU] at hxU
      rcases Finset.mem_union.mp hxU with hx1 | hx2
      · rcases Finset.mem_union.mp hx1 with hs1 | hs2
        · exact (hstk _ (List.mem_toFinset.mp hs1))
        · obtain ⟨i, _, hik⟩ := Finset.mem_image.mp hs2
          cases hik
      · obtain ⟨i, hir, hie⟩ := Finset.mem_biUnion.mp hx2
        rcases hp : (s.verts.getD i default).pred with _ | pe <;> rw [hp] at hie
        · exact absurd hie (by simp)
        · dsimp only at hie
          have hpe := PItem.edg.inj (Finset.mem_singleton.mp hie)
          subst hpe
          have := hpred i (Finset.mem_range.mp hir)
          rw [hp, predInRange] at this
          exact this
    rw [itemSuccs] at hy
    simp only [List.mem_cons, List.mem_singleton, List.not_mem_nil, or_false] at hy
    rcases hy with rfl | rfl
    · rw [graphU]
      exact Finset.mem_union_left _ (Finset.mem_union_right _
        (Finset.mem_image.mpr ⟨e.par2, Finset.mem_range.mpr hpars.2, rfl⟩))
    · rw [graphU]
      exact Finset.mem_union_left _ (Finset.mem_union_right _
        (Finset.mem_image.mpr ⟨e.par1, Finset.mem_range.mpr hpars.1, rfl⟩))

theorem graphU_card (s : GState) (stk : List PItem) :
    (graphU s stk).card ≤ stk.length + s.verts.length + s.verts.length := by
  rw [graphU]
  refine le_trans (Finset.card_union_le _ _) ?_
  have h1 : (stk.toFinset ∪ (Finset.range s.verts.length).image PItem.vtx).card
      ≤ stk.length + s.verts.length := by
    refine le_trans (Finset.card_union_le _ _) ?_
    have ha := List.toFinset_card_le stk
    have hb := Finset.card_image_le (s := Finset.range s.verts.length) (f := PItem.vtx)
    rw [Finset.card_range] at hb
    omega
  have h2 : ((Finset.range s.verts.length).biUnion
      (fun i => match (s.verts.getD i default).pred with
        | none => ∅
        | some e => {PItem.edg e})).card ≤ s.verts.length := by
    refine le_trans (Finset.card_biUnion_le) ?_
    have hone : ∀ i ∈ Finset.range s.verts.length,
        (match (s.verts.getD i default).pred with
          | none => (∅ : Finset PItem)
          | some e => {PItem.edg e}).card ≤ 1 := by
      intro i _
      rcases (s.verts.getD i default).pred with _ | e
      · simp
      · simp
    refine le_trans (Finset.sum_le_card_nsmul _ _ 1 hone) ?_
    rw [Finset.card_range, smul_eq_mul, mul_one]
  omega

theorem visitRun_closure (s : GState) (stk : List PItem) (hpred : PredOK s)
    (hstk : ∀ x ∈ stk, itemOK s x) :
    (visitRun s (visitFuel s stk) stk ∅).Nodup ∧
    ∀ y, y ∈ visitRun s (visitFuel s stk) stk ∅ ↔
      ∃ a ∈ stk, Relation.ReflTransGen (fun p q => q ∈ itemSuccs s p) a y := by
  have hU := graphU_closed s stk hpred hstk
  have hstkU : ∀ x ∈ stk, x ∈ graphU s stk := by
    intro x hx
    rw [graphU]
    exact Finset.mem_union_left _ (Finset.mem_union_left _ (List.mem_toFinset.mpr hx))
  have hcard := graphU_card s stk
  have hfuel : 3 * ((graphU s stk) \ ∅).card + stk.length ≤ visitFuel s stk := by
    rw [Finset.sdiff_empty, visitFuel]
    omega
  obtain ⟨h1, h2, h3, h4, h5⟩ := visitRun_correct s (graphU s stk) hU (visitFuel s stk)
    stk ∅ hstkU (Finset.empty_subset _) hfuel
  refine ⟨h1, fun y => ⟨fun hy => h5 y hy, fun hex => ?_⟩⟩
  obtain ⟨a, ha, hr⟩ := hex
  induction hr with
  | refl =>
    rcases h3 a ha with h | h
    · exact h
    · exact absurd h (Finset.not_mem_empty _)
  | tail hr2 hstep ih =>
    rcases h4 _ ih _ hstep with h | h
    · exact h
    · exact absurd h (Finset.not_mem_empty _)

theorem predInRange_mono (n m : ℕ) (o : Option EdgeData)
    (h : predInRange n o) (hnm : n ≤ m) : predInRange m o := by
  rcases o with _ | e
  · exact trivial
  · rw [predInRange] at h ⊢
    omega

/-- Every candidate edge a worker emits references parents below the
call-start vertex count. -/
theorem iBatch_pars (s : GState) (N i : ℕ) :
    ∀ c ∈ iBatch s N i, c.e.par1 < N ∧ c.e.par2 < N := by
  intro c hc
  rw [iBatch] at hc
  obtain ⟨j, hj, hjc⟩ := List.mem_flatMap.mp hc
  obtain ⟨t, ht, hres⟩ := List.mem_filterMap.mp hjc
  rw [List.mem_range'_1] at hj
  dsimp only at hres
  split_ifs at hres with hz
  obtain rfl := Option.some.inj hres
  constructor
  · show i < N
    omega
  · show j < N
    omega

theorem processCandidate_predOK (keep : GeneticDistribution → Bool) (s : GState)
    (c : Cand) (s' : GState) (hpok : PredOK s)
    (hc : c.e.par1 < s.verts.length ∧ c.e.par2 < s.verts.length)
    (h : processCandidate keep s c = some s') : PredOK s' := by
  have hset : ∀ vi, vi < s.verts.length →
      PredOK ⟨s.tests,
        s.verts.set vi ⟨(s.verts.getD vi default).gd, some c.e⟩, s.vertFrontier⟩ := by
    intro vi hvi i2 hi2
    rw [List.length_set] at hi2 ⊢
    by_cases hivi : vi = i2
    · subst hivi
      rw [getD_set_self _ _ _ _ hvi, predInRange]
      exact hc
    · rw [getD_set_ne _ _ _ _ _ hivi]
      exact hpok i2 hi2
  rw [processCandidate] at h
  rcases hf : s.verts.findIdx? (fun v => v.gd = c.gd) with _ | vi <;> rw [hf] at h <;>
    dsimp only at h
  · split_ifs at h with hk <;> obtain rfl := Option.some.inj h
    · intro i2 hi2
      rw [List.length_append] at hi2 ⊢
      rcases lt_or_ge i2 s.verts.length with hlt | hge
      · rw [getD_append_low _ _ _ _ hlt]
        exact predInRange_mono _ _ _ (hpok i2 hlt) (by omega)
      · have hi2e : i2 = s.verts.length := by
          simp only [List.length_singleton] at hi2
          omega
        rw [getD_append_high _ _ _ _ hge, if_pos hi2e, predInRange]
        constructor
        · omega
        · omega
    · exact hpok
  · have hvi : vi < s.verts.length := by
      have := List.findIdx?_eq_some_iff_findIdx_eq.mp hf
      omega
    split_ifs at h
    · obtain rfl := Option.some.inj h
      exact hset vi hvi
    · rcases hp : (s.verts.getD vi default).pred with _ | pe <;> rw [hp] at h <;>
        dsimp only at h
      · cases h
      · split_ifs at h <;> obtain rfl := Option.some.inj h
        · exact hset vi hvi
        · exact hpok
    · obtain rfl := Option.some.inj h
      exact hpok

theorem processList_predOK (keep : GeneticDistribution → Bool) :
    ∀ (cs : List Cand) (s s' : GState), PredOK s →
    (∀ c ∈ cs, c.e.par1 < s.verts.length ∧ c.e.par2 < s.verts.length) →
    processList keep s cs = some s' → PredOK s'
  | [], s, s', hpok, _, h => by
    obtain rfl := Option.some.inj h
    exact hpok
  | c :: cs, s, s', hpok, hcs, h => by
    rw [processList] at h
    rcases hc : processCandidate keep s c with _ | s2 <;> rw [hc] at h <;> dsimp only at h
    · cases h
    · have hlen := (processCandidate_frame keep s c s2 hc).1
      refine processList_predOK keep cs s2 s'
        (processCandidate_predOK keep s c s2 hpok (hcs c (List.mem_cons_self _ _)) hc)
        (fun d hd => ?_) h
      have := hcs d (List.mem_cons_of_mem _ hd)
      omega

theorem expandSched_predOK (keep : GeneticDistribution → Bool) (s : GState)
    (o : List ℕ) (s' : GState) (hpok : PredOK s)
    (h : expandSched keep s o = some s') : PredOK s' := by
  rw [expandSched] at h
  rcases hp : processList keep s (o.flatMap (iBatch s s.verts.length)) with _ | s2 <;>
    rw [hp] at h <;> dsimp only at h
  · cases h
  · obtain rfl := Option.some.inj h
    have h2 : PredOK s2 := by
      refine processList_predOK keep _ s s2 hpok (fun c hc => ?_) hp
      obtain ⟨i, _, hi⟩ := List.mem_flatMap.mp hc
      exact iBatch_pars s s.verts.length i c hi
    exact h2

theorem runSteps_predOK :
    ∀ (steps : List ((GeneticDistribution → Bool) × List ℕ)) (s s' : GState),
    PredOK s → runSteps steps s = some s' → PredOK s'
  | [], s, s', hpok, h => by
    obtain rfl := Option.some.inj h
    exact hpok
  | (keep, o) :: rest, s, s', hpok, h => by
    rw [runSteps] at h
    rcases he : expandSched keep s o with _ | s2 <;> rw [he] at h <;> dsimp only at h
    · cases h
    · exact runSteps_predOK rest s2 s' (expandSched_predOK keep s o s2 hpok he) h

theorem NewGraph_predOK (tests : List Test) (seeds : List GeneticDistribution) :
    PredOK (NewGraph tests seeds) := by
  intro i _
  rw [NewGraph_seed]
  exact trivial

/-- C4 (amended): `PathCost` is 0 for a seed vertex and otherwise equals
the sum of the costs of the DISTINCT items in the best-predecessor
subgraph pathing to the vertex — each edge counted once even when it is
reachable through both parents (`visitSubgraphPathingToAllOf` dedups via
its `handled` set); the claim's per-parent recursive sum double-counts
shared ancestors (see the counterexample).  Part 1 shows the only
hypothesis of part 2, `PredOK` (stored predecessor edges reference
existing vertices), holds in every state any run of the engine reaches,
so part 2 covers every vertex of every reachable graph. -/
theorem claim_C4 :
    (∀ (tests : List Test) (seeds : List GeneticDistribution)
      (steps : List ((GeneticDistribution → Bool) × List ℕ)) (s : GState),
      runSteps steps (NewGraph tests seeds) = some s → PredOK s) ∧
    (∀ (s : GState), PredOK s → ∀ i : ℕ,
      ((s.verts.getD i default).pred = none → vertexPathCost s i = 0) ∧
      (∀ e, (s.verts.getD i default).pred = some e →
        ∃ items : List PItem, items.Nodup ∧
          (∀ y, y ∈ items ↔
            Relation.ReflTransGen (fun p q => q ∈ itemSuccs s p) (PItem.edg e) y) ∧
          vertexPathCost s i = (items.map itemCost).sum)) := by
  constructor
  · intro tests seeds steps s h
    exact runSteps_predOK steps _ s (NewGraph_predOK tests seeds) h
  · intro s hpred i
    refine ⟨fun hp => vertexPathCost_seed s i hp, ?_⟩
    intro e hp
    have hilen : i < s.verts.length := by
      by_contra h
      rw [getD_default_of_ge s.verts i (by omega)] at hp
      cases hp
    have hpars := hpred i hilen
    rw [hp, predInRange] at hpars
    have hstk : ∀ x ∈ [PItem.edg e], itemOK s x := by
      intro x hx
      obtain rfl := List.mem_singleton.mp hx
      exact hpars
    obtain ⟨hnd, hmem⟩ := visitRun_closure s [PItem.edg e] hpred hstk
    refine ⟨visitRun s (visitFuel s [PItem.edg e]) [PItem.edg e] ∅, hnd, ?_, ?_⟩
    · intro y
      rw [hmem y]
      constructor
      · rintro ⟨a, ha, hr⟩
        obtain rfl := List.mem_singleton.mp ha
        exact hr
      · intro hr
        exact ⟨_, List.mem_singleton_self _, hr⟩
    · rw [vertexPathCost, hp]
      show edgePathCost s e = _
      rw [edgePathCost]

theorem claim_C4_counterexample :
    runSteps c4Steps (NewGraph [c4T1, c4T2] [cGDA]) = some c4Final ∧
    WellFormed c4Final ∧
    vertexPathCost c4Final 2 = 9 ∧
    claimPathCost c4Final 2 2 = 17 ∧
    claimPathCost c4Final 3 2 = 17 :=
  ⟨rfl, by decide, by decide, by decide, by decide⟩

/-- Witness: the reachable diamond graph `c4Final` satisfies `PredOK`
by part 1, and part 2 applies at its vertex 2. -/
theorem claim_C4_witness :
    PredOK c4Final ∧
    ((c4Final.verts.getD 2 default).pred = none → vertexPathCost c4Final 2 = 0) ∧
    (∀ e, (c4Final.verts.getD 2 default).pred = some e →
      ∃ items : List PItem, items.Nodup ∧
        (∀ y, y ∈ items ↔
          Relation.ReflTransGen (fun p q => q ∈ itemSuccs c4Final p) (PItem.edg e) y) ∧
        vertexPathCost c4Final 2 = (items.map itemCost).sum) :=
  ⟨claim_C4.1 [c4T1, c4T2] [cGDA] c4Steps c4Final rfl,
   (claim_C4.2 c4Final (claim_C4.1 [c4T1, c4T2] [cGDA] c4Steps c4Final rfl) 2).1,
   (claim_C4.2 c4Final (claim_C4.1 [c4T1, c4T2] [cGDA] c4Steps c4Final rfl) 2).2⟩

end breedgraph
